import Mathlib

set_option maxHeartbeats 1600000

set_option maxRecDepth 100000

/-!
Shallow embedding of the trending-skills repository (src/claude_summarizer.py
and src/skills_fetcher.py) together with proofs about the claims of its
specification.  Python dicts holding typed records are modelled as structures
with `Option` fields (an absent key is `none`); exceptions are modelled with
`Except`; the nondeterministic completion order of the thread pool is an
explicit parameter.
-/

namespace TrendingSkills

/-! ## Python string primitives -/

/-- The characters Python's `str.strip()` removes (ASCII fragment of the
Python whitespace class, which is all that the inputs here contain). -/
def pyIsSpace (c : Char) : Bool :=
  c = ' ' || c = '\t' || c = '\n' || c = '\r' || c = '\x0b' || c = '\x0c'

/-- Python `str.strip()`. -/
def pyStrip (s : String) : String :=
  ⟨((s.data.dropWhile pyIsSpace).reverse.dropWhile pyIsSpace).reverse⟩

/-- Index of the first occurrence of `pat` in `hay` (Python `str.find`,
with `none` for Python's `-1`). -/
def pyFindAux (pat : List Char) : List Char → Nat → Option Nat
  | [], i => if pat.isEmpty then some i else none
  | c :: rest, i =>
      if pat.isPrefixOf (c :: rest) then some i else pyFindAux pat rest (i + 1)

def pyFind (hay pat : List Char) : Option Nat :=
  pyFindAux pat hay 0

/-- Index of the last occurrence of `pat` in `hay` (Python `str.rfind`). -/
def pyRfindAux (pat : List Char) : List Char → Nat → Option Nat → Option Nat
  | [], i, acc => if pat.isEmpty then some i else acc
  | c :: rest, i, acc =>
      pyRfindAux pat rest (i + 1)
        (if pat.isPrefixOf (c :: rest) then some i else acc)

def pyRfind (hay pat : List Char) : Option Nat :=
  pyRfindAux pat hay 0 none

/-- Python slice `s[a:b]` for `0 ≤ a ≤ b` (the only shape used here). -/
def pySlice (s : String) (a b : Nat) : String :=
  ⟨(s.data.drop a).take (b - a)⟩

/-- Python slice `s[a:]`. -/
def pySliceFrom (s : String) (a : Nat) : String :=
  ⟨s.data.drop a⟩

/-- Python `s.split("\n", 1)[-1]`: everything after the first newline, or the
whole string when it has no newline. -/
def pyAfterFirstNewline (s : String) : String :=
  match pyFind s.data ['\n'] with
  | some i => pySliceFrom s (i + 1)
  | none => s

/-- Python `s.rsplit(pat, 1)[0]`: everything before the last occurrence of
`pat`, or the whole string when `pat` does not occur. -/
def pyBeforeLast (s : String) (pat : String) : String :=
  match pyRfind s.data pat.data with
  | some i => pySlice s 0 i
  | none => s

/-- Python `str.upper()` (ASCII fragment). -/
def pyUpper (s : String) : String :=
  ⟨s.data.map Char.toUpper⟩

/-- Remove every occurrence of the character `c` (Python
`s.replace(c, "")` for a one-character pattern). -/
def pyRemoveChar (s : String) (c : Char) : String :=
  ⟨s.data.filter (· ≠ c)⟩

/-- Python `str.startswith`. -/
def pyStartsWith (s pre : String) : Bool :=
  pre.data.isPrefixOf s.data

/-- Python `str.endswith`. -/
def pyEndsWith (s suf : String) : Bool :=
  suf.data.isSuffixOf s.data

/-- Python `s.split(",")`. -/
def pySplitComma (s : List Char) : List String :=
  (s.foldr
    (fun c acc =>
      if c = ',' then [] :: acc
      else
        match acc with
        | h :: t => (c :: h) :: t
        | [] => [[c]])
    [[]]).map String.mk

/-! ## JSON values and `json.loads`

`Json` models the Python objects produced by `json.loads`.  The decoder
below models `json.loads` on the JSON fragment the program exchanges
(null / booleans / integer numbers / strings with simple escapes / arrays /
objects); fractional and exponent number forms and `\u` escapes are outside
the modelled fragment.  None of the general theorems below depend on the
decoder's verdict on any particular string. -/

inductive Json where
  | null : Json
  | bool (b : Bool) : Json
  | num (n : Int) : Json
  | str (s : String) : Json
  | arr (elems : List Json) : Json
  | obj (fields : List (String × Json)) : Json

/-- First binding of key `k` in a decoded object (`dict.get`): Python dicts
keep one binding per key; the builder below overwrites earlier bindings, so
lookups here always use the first match of the assoc list it builds. -/
def Json.get : Json → String → Option Json
  | .obj fields, k => fields.lookup k
  | _, _ => none

/-- Python truthiness of a decoded JSON value. -/
def Json.falsy : Json → Bool
  | .null => true
  | .bool b => !b
  | .num n => n = 0
  | .str s => s.data.isEmpty
  | .arr es => es.isEmpty
  | .obj fs => fs.isEmpty

/-- JSON whitespace accepted between tokens. -/
def jsonWs (c : Char) : Bool :=
  c = ' ' || c = '\t' || c = '\n' || c = '\r'

def skipWs (s : List Char) : List Char :=
  s.dropWhile jsonWs

/-- Body of a JSON string literal, after the opening quote. -/
def parseStrBody : List Char → Option (String × List Char)
  | [] => none
  | '\x22' :: rest => some ("", rest)
  | '\\' :: e :: rest =>
      (parseStrBody rest).bind fun r =>
        (match e with
          | '\x22' => some '\x22'
          | '\\' => some '\\'
          | '/' => some '/'
          | 'n' => some '\n'
          | 't' => some '\t'
          | 'r' => some '\r'
          | 'b' => some '\x08'
          | 'f' => some '\x0c'
          | _ => none).map fun c => (⟨c :: r.1.data⟩, r.2)
  | c :: rest =>
      (parseStrBody rest).map fun r => (⟨c :: r.1.data⟩, r.2)

/-- A nonempty run of decimal digits as a natural number. -/
def parseDigits (s : List Char) : Option (Nat × List Char) :=
  let ds := s.takeWhile Char.isDigit
  if ds.isEmpty then none
  else some (ds.foldl (fun n c => n * 10 + (c.toNat - '0'.toNat)) 0, s.drop ds.length)

/-- JSON integer literal (optional minus sign). -/
def parseJsonNum (s : List Char) : Option (Int × List Char) :=
  match s with
  | '-' :: rest => (parseDigits rest).map fun r => (-(r.1 : Int), r.2)
  | _ => (parseDigits s).map fun r => ((r.1 : Int), r.2)

mutual

/-- One JSON value (fuel-indexed recursive-descent decoder). -/
def parseVal : Nat → List Char → Option (Json × List Char)
  | 0, _ => none
  | fuel + 1, s =>
    match s with
    | '\x22' :: rest => (parseStrBody rest).map fun r => (Json.str r.1, r.2)
    | '[' :: rest =>
        let r := skipWs rest
        (match r with
          | ']' :: r2 => some (Json.arr [], r2)
          | _ => (parseElems fuel r).map fun p => (Json.arr p.1, p.2))
    | '\x7b' :: rest =>
        let r := skipWs rest
        (match r with
          | '\x7d' :: r2 => some (Json.obj [], r2)
          | _ => (parseMembers fuel r).map fun p => (Json.obj p.1, p.2))
    | 't' :: 'r' :: 'u' :: 'e' :: rest => some (Json.bool true, rest)
    | 'f' :: 'a' :: 'l' :: 's' :: 'e' :: rest => some (Json.bool false, rest)
    | 'n' :: 'u' :: 'l' :: 'l' :: rest => some (Json.null, rest)
    | _ => (parseJsonNum s).map fun r => (Json.num r.1, r.2)

/-- Comma-separated array elements up to the closing bracket. -/
def parseElems : Nat → List Char → Option (List Json × List Char)
  | 0, _ => none
  | fuel + 1, s =>
      (parseVal fuel s).bind fun v =>
        match skipWs v.2 with
        | ',' :: rest => (parseElems fuel (skipWs rest)).map fun p => (v.1 :: p.1, p.2)
        | ']' :: rest => some ([v.1], rest)
        | _ => none

/-- Comma-separated object members up to the closing brace. -/
def parseMembers : Nat → List Char → Option (List (String × Json) × List Char)
  | 0, _ => none
  | fuel + 1, s =>
      match s with
      | '\x22' :: rest =>
          (parseStrBody rest).bind fun k =>
            match skipWs k.2 with
            | ':' :: rest2 =>
                (parseVal fuel (skipWs rest2)).bind fun v =>
                  (match skipWs v.2 with
                    | ',' :: rest3 => (parseMembers fuel (skipWs rest3)).map fun p =>
                        ((k.1, v.1) :: p.1, p.2)
                    | '\x7d' :: rest3 => some ([(k.1, v.1)], rest3)
                    | _ => none)
            | _ => none
      | _ => none

end

/-- `json.loads`: decode a complete JSON document, rejecting trailing junk. -/
def loads (s : String) : Option Json :=
  let cs := skipWs s.data
  match parseVal (2 * cs.length + 4) cs with
  | some (v, rest) => if (skipWs rest).isEmpty then some v else none
  | none => none

/-- Python `repr` of a decoded JSON object (the shape `str(x)` produces for
containers). -/
def pyRepr : Json → String
  | .null => "None"
  | .bool true => "True"
  | .bool false => "False"
  | .num n => toString n
  | .str s => "\x27" ++ s ++ "\x27"
  | .arr es => "[" ++ String.intercalate ", " (es.attach.map fun x => pyRepr x.1) ++ "]"
  | .obj fs => "\x7b" ++
      String.intercalate ", "
        (fs.attach.map fun x => "\x27" ++ x.1.1 ++ "\x27: " ++ pyRepr x.1.2) ++ "\x7d"
decreasing_by
  · have := List.sizeOf_lt_of_mem x.2
    simp only [Json.arr.sizeOf_spec]
    omega
  · have h1 := List.sizeOf_lt_of_mem x.2
    have h2 : sizeOf x.1.2 < sizeOf x.1 := by
      obtain ⟨a, b⟩ := x.1
      simp only [Prod.mk.sizeOf_spec]
      omega
    simp only [Json.obj.sizeOf_spec]
    omega

/-- Python `str(x)` on a decoded JSON object. -/
def pyStr : Json → String
  | .str s => s
  | v => pyRepr v

/-! ## claude_summarizer.py -/

/-- The fixed 15-key category enumeration (`CATEGORIES` in
claude_summarizer.py), as an ordered key/label association list. -/
def CATEGORIES : List (String × String) :=
  [("frontend", "前端开发"),
   ("backend", "后端开发"),
   ("mobile", "移动开发"),
   ("devops", "运维/部署"),
   ("video", "视频处理"),
   ("animation", "动画"),
   ("data", "数据处理"),
   ("ai", "AI/ML"),
   ("testing", "测试"),
   ("marketing", "营销/SEO"),
   ("documentation", "文档"),
   ("design", "设计"),
   ("database", "数据库"),
   ("security", "安全"),
   ("other", "其他")]

/-- Python `category in CATEGORIES` (dict key membership). -/
def categoriesHasKey (k : String) : Bool :=
  (CATEGORIES.lookup k).isSome

/-- A detail record handed to the orchestrator: the Python dict produced by
detail_fetcher.py, with `none` standing for an absent key. -/
structure DetailRecord where
  name : Option String := none
  owner : Option String := none
  url : Option String := none
  rules_count : Option Int := none
  when_to_use : Option String := none

/-- One entry of the orchestrator's output (the result dicts built in
`_parse_single_response`, `_fallback_single` and `_parse_batch_response`).
`summary`, `description`, `use_case` and `solves` keep the raw decoded value
in the single-response path, so they are modelled as `Json`. -/
structure ClassificationResult where
  name : String
  summary : Json
  description : Json
  use_case : Json
  solves : Json
  category : String
  category_zh : String
  rules_count : Int
  owner : String
  url : String
  fallback : Bool

/-- The Python exceptions `_parse_single_response` can raise. -/
inductive PyErr where
  | jsonDecodeError
  | typeError
  | attributeError

/-- The markdown cleanup at the top of `_parse_single_response`. -/
def clean_single (text : String) : String :=
  let cleaned := pyStrip text
  let cleaned := if pyStartsWith cleaned "```" then pyAfterFirstNewline cleaned else cleaned
  let cleaned := if pyEndsWith cleaned "```" then pyBeforeLast cleaned "```" else cleaned
  pyStrip cleaned

/-- The decode step of `_parse_single_response`: `json.loads` on the cleaned
text, then on the brace-delimited span when the first attempt raises. -/
def decode_single (cleaned : String) : Except PyErr Json :=
  match loads cleaned with
  | some v => .ok v
  | none =>
      match pyFind cleaned.data ['\x7b'], pyRfind cleaned.data ['\x7d'] with
      | some st, some en =>
          if st < en + 1 then
            match loads (pySlice cleaned st (en + 1)) with
            | some v => .ok v
            | none => .error .jsonDecodeError
          else .error .jsonDecodeError
      | _, _ => .error .jsonDecodeError

/-- The category validation shared by `_parse_single_response` and
`_parse_batch_response`: a value that is not one of the 15 keys (including a
missing or non-string value) is replaced by `"other"`. -/
def validate_category (fields : List (String × Json)) : String :=
  match fields.lookup "category" with
  | some (.str s) => if categoriesHasKey s then s else "other"
  | some _ => "other"
  | none => "other"

/-- `data.get("solves", [])[:5] or ["待分析"]` from `_parse_single_response`:
Python slicing accepts lists and strings and raises `TypeError` otherwise;
the `or` replaces an empty result by the placeholder list. -/
def single_solves (fields : List (String × Json)) : Except PyErr Json := do
  let sliced ← match (fields.lookup "solves").getD (.arr []) with
    | .arr xs => Except.ok (Json.arr (xs.take 5))
    | .str s => Except.ok (Json.str ⟨s.data.take 5⟩)
    | _ => Except.error PyErr.typeError
  return if sliced.falsy then Json.arr [Json.str "待分析"] else sliced

/-- The result construction of `_parse_single_response` applied to the
decoded (list-unwrapped) response value. -/
def single_from_data (data : Json) (detail : DetailRecord) :
    Except PyErr ClassificationResult := do
  let name := (detail.name).getD ""
  let fields ← match data with
    | .obj fs => Except.ok fs
    | _ => Except.error PyErr.attributeError
  let category := validate_category fields
  let solves ← single_solves fields
  return {
    name := name
    summary := (fields.lookup "summary").getD (.str (name ++ " 技能"))
    description := (fields.lookup "description").getD (.str "")
    use_case := (fields.lookup "use_case").getD (.str "")
    solves := solves
    category := category
    category_zh := (CATEGORIES.lookup category).getD "其他"
    rules_count := (detail.rules_count).getD 0
    owner := (detail.owner).getD ""
    url := (detail.url).getD ""
    fallback := false }

/-- `if isinstance(data, list): data = data[0] if data else {}`. -/
def unwrap_first (data : Json) : Json :=
  match data with
  | .arr (x :: _) => x
  | .arr [] => .obj []
  | v => v

/-- `ClaudeSummarizer._parse_single_response`. -/
def parse_single_response (text : String) (detail : DetailRecord) :
    Except PyErr ClassificationResult := do
  let data0 ← decode_single (clean_single text)
  single_from_data (unwrap_first data0) detail

/-- `ClaudeSummarizer._fallback_single`: the deterministic fallback result. -/
def fallback_single (detail : DetailRecord) : ClassificationResult :=
  let name := (detail.name).getD "unknown"
  { name := name
    summary := .str (name ++ " - AI 分析暂不可用")
    description := .str ("技能名称: " ++ name)
    use_case := .str "待分析"
    solves := .arr [.str "待分析"]
    category := "other"
    category_zh := "其他"
    rules_count := (detail.rules_count).getD 0
    owner := (detail.owner).getD ""
    url := (detail.url).getD ""
    fallback := true }

/-- `ClaudeSummarizer._fallback_summaries` builds, for each detail, the same
dict literal as `_fallback_single`. -/
def fallback_summaries (details : List DetailRecord) : List ClassificationResult :=
  details.map fallback_single

/-! ### The retry loop of `_chat_completions` -/

/-- The exception classes distinguished by `_should_retry` (the HTTP status
code travels separately, as in the Python signature). -/
inductive PyExc where
  | timeout
  | connectionError
  | jsonDecodeError
  | httpError
  | valueError
  | otherExc

/-- `ClaudeSummarizer._should_retry`. -/
def should_retry (exc : PyExc) (status_code : Option Int) : Bool :=
  match exc, status_code with
  | .timeout, _ => true
  | .connectionError, _ => true
  | .jsonDecodeError, _ => true
  | .httpError, some s =>
      if s = 408 || s = 409 || s = 429 then true
      else if 500 ≤ s && s ≤ 599 then true
      else false
  | .httpError, none => false
  | .valueError, _ => true
  | .otherExc, _ => false

/-- What one HTTP attempt of `_chat_completions` does: return usable content,
or raise an exception carrying an optional HTTP status. -/
inductive AttemptOutcome where
  | success (content : String)
  | failure (exc : PyExc) (status_code : Option Int)

/-- The attempt loop of `_chat_completions`: attempt numbers run from 1 to
`max_retries`; on failure the loop continues exactly when attempts remain and
`_should_retry` accepts the exception. -/
def chat_attempts (oracle : Nat → AttemptOutcome) (max_retries : Nat)
    (attempt : Nat) : Except (PyExc × Option Int) String :=
  match oracle attempt with
  | .success c => .ok c
  | .failure e st =>
      if h : max_retries ≤ attempt ∨ should_retry e st = false then .error (e, st)
      else chat_attempts oracle max_retries (attempt + 1)
termination_by max_retries - attempt
decreasing_by
  push_neg at h
  omega

/-- `ClaudeSummarizer._chat_completions` (the loop plus the empty-budget
edge case, where Python raises its final `RuntimeError`). -/
def chat_completions (oracle : Nat → AttemptOutcome) (max_retries : Nat) :
    Except (PyExc × Option Int) String :=
  if max_retries = 0 then .error (.otherExc, none)
  else chat_attempts oracle max_retries 1

/-! ### The orchestrator `summarize_and_classify` -/

/-- Outcome of one per-item worker (`_analyze_single_skill` for item `i`):
`response i = none` models a model call that failed every configured attempt,
otherwise the returned content is parsed; any parse exception also makes the
future raise. -/
def analyze_outcome (response : Nat → Option String) (i : Nat)
    (d : DetailRecord) : Option ClassificationResult :=
  match response i with
  | none => none
  | some t => (parse_single_response t d).toOption

/-- `ClaudeSummarizer.summarize_and_classify`.  The thread pool's completion
order is the explicit parameter `order` (a permutation of the item indices):
successful results are appended as their futures complete, and the items
whose futures raised get their fallback appended afterwards. -/
def summarize_and_classify (response : Nat → Option String) (order : List Nat)
    (details : List DetailRecord) : List ClassificationResult :=
  let completed := order.filterMap fun i => (details[i]?).map fun d => (i, d)
  let results := completed.filterMap fun p => analyze_outcome response p.1 p.2
  let failed := completed.filter fun p => (analyze_outcome response p.1 p.2).isNone
  results ++ failed.map fun p => fallback_single p.2

/-! ### The legacy batch path `_parse_batch_response` -/

/-- The markdown cleanup at the top of `_parse_batch_response`. -/
def clean_batch (result_text : String) : String :=
  let cleaned := pyStrip result_text
  let cleaned := if pyStartsWith cleaned "```json" then pySliceFrom cleaned 7 else cleaned
  let cleaned := if pyStartsWith cleaned "```" then pySliceFrom cleaned 3 else cleaned
  let cleaned := if pyEndsWith cleaned "```" then pySlice cleaned 0 (cleaned.data.length - 3)
    else cleaned
  pyStrip cleaned

/-- The candidate substrings `_parse_batch_response` builds: it starts from
`[cleaned]`, INSERTS the bracket-delimited span at position 0 when present,
and appends the brace-delimited span when present. -/
def batch_candidates (cleaned : String) : List String :=
  let candidates := [cleaned]
  let candidates :=
    match pyFind cleaned.data ['['], pyRfind cleaned.data [']'] with
    | some bs, some be =>
        if bs < be then pySlice cleaned bs (be + 1) :: candidates else candidates
    | _, _ => candidates
  match pyFind cleaned.data ['\x7b'], pyRfind cleaned.data ['\x7d'] with
  | some ps, some pe =>
      if ps < pe then candidates ++ [pySlice cleaned ps (pe + 1)] else candidates
  | _, _ => candidates

/-- First candidate that `json.loads` accepts. -/
def first_loads : List String → Option Json
  | [] => none
  | c :: rest =>
      match loads c with
      | some v => some v
      | none => first_loads rest

/-- The whole decode step of `_parse_batch_response`. -/
def decode_batch (result_text : String) : Option Json :=
  first_loads (batch_candidates (clean_batch result_text))

/-- Decode step as the spec describes it (claim C9): candidates in the order
full text, bracket-delimited span, brace-delimited span.  Stated only to be
compared with `decode_batch`, which is translated from the source. -/
def spec_decode_batch (result_text : String) : Option Json :=
  let cleaned := clean_batch result_text
  let candidates := [cleaned]
  let candidates :=
    match pyFind cleaned.data ['['], pyRfind cleaned.data [']'] with
    | some bs, some be =>
        if bs < be then candidates ++ [pySlice cleaned bs (be + 1)] else candidates
    | _, _ => candidates
  let candidates :=
    match pyFind cleaned.data ['\x7b'], pyRfind cleaned.data ['\x7d'] with
    | some ps, some pe =>
        if ps < pe then candidates ++ [pySlice cleaned ps (pe + 1)] else candidates
    | _, _ => candidates
  first_loads candidates

/-- The name index `result_by_name` (later occurrences of a name overwrite
earlier ones, as in a Python dict assignment). -/
def setKey {β : Type} : List (String × β) → String → β → List (String × β)
  | [], k, v => [(k, v)]
  | (k0, v0) :: rest, k, v =>
      if k0 = k then (k, v) :: rest else (k0, v0) :: setKey rest k v

def build_index (results : List Json) : List (String × Json) :=
  results.foldl (fun acc item =>
    match item with
    | .obj fields =>
        match fields.lookup "name" with
        | some (.str n) =>
            if (pyStrip n).data.isEmpty then acc else setKey acc (pyStrip n) item
        | _ => acc
    | _ => acc) []

/-- The solves coercion of `_parse_batch_response` for a string value:
replace the CJK separators and newlines by commas, split, strip, drop
empties. -/
def normalize_solves_str (s : String) : List String :=
  let normalized := s.data.map fun c =>
    if c = '；' || c = '，' || c = '、' || c = '\n' then ',' else c
  (pySplitComma normalized).filterMap fun t =>
    let t2 := pyStrip t
    if t2.data.isEmpty then none else some t2

/-- One iteration of the solves loop of `_parse_batch_response`: skip
`None`, stringify and strip, drop empties, keep first occurrences. -/
def dedupStep (acc : List String) (s : Json) : List String :=
  match s with
  | .null => acc
  | v =>
      let t := pyStrip (pyStr v)
      if t.data.isEmpty then acc
      else if acc.contains t then acc
      else acc ++ [t]

/-- The whole solves loop of `_parse_batch_response`. -/
def dedup_solves (xs : List Json) : List String :=
  xs.foldl dedupStep []

/-- `str.replace("\r", " ").replace("\n", " ")`. -/
def stripNewlines (s : String) : String :=
  String.mk (s.data.map fun c => if c = '\r' || c = '\n' then ' ' else c)

/-- The per-item validation/normalization pass of `_parse_batch_response`:
`raw` is the field list of the model's entry for this name (`[]` when the
name was missing from the response index). -/
def validate_batch_item (raw : List (String × Json)) (name : String)
    (original : DetailRecord) : ClassificationResult :=
  let category := validate_category raw
  let category_zh := (CATEGORIES.lookup category).getD "其他"
  let solves0 := match (raw.lookup "solves").getD (.arr []) with
    | .str s => dedup_solves ((normalize_solves_str s).map Json.str)
    | .arr xs => dedup_solves xs
    | _ => []
  let solves1 := solves0.take 5
  let solves := if solves1.isEmpty then ["待分析"] else solves1
  let summary0 := match raw.lookup "summary" with
    | some v => if v.falsy then Json.str (name ++ " 技能") else v
    | none => Json.str (name ++ " 技能")
  let summary := stripNewlines (pyStrip (pyStr summary0))
  let description0 := match raw.lookup "description" with
    | some v => if v.falsy then Json.str "" else v
    | none => Json.str ""
  let description := pyStrip (pyStr description0)
  let use_case0 := match raw.lookup "use_case" with
    | some v => if v.falsy then Json.str "" else v
    | none => Json.str ""
  let use_case := pyStrip (pyStr use_case0)
  { name := name
    summary := .str summary
    description := .str description
    use_case := .str use_case
    solves := .arr (solves.map Json.str)
    category := category
    category_zh := category_zh
    rules_count := (original.rules_count).getD 0
    owner := (original.owner).getD ""
    url := (original.url).getD ""
    fallback := raw.isEmpty }

/-- `ClaudeSummarizer._parse_batch_response`. -/
def parse_batch_response (result_text : String)
    (original_details : List DetailRecord) : List ClassificationResult :=
  match decode_batch result_text with
  | none => fallback_summaries original_details
  | some parsed =>
      let results := match parsed with
        | .arr xs => xs
        | v => [v]
      let index := build_index results
      original_details.filterMap fun original =>
        match original.name with
        | none => none
        | some n =>
            if n.data.isEmpty then none
            else
              let raw := match index.lookup n with
                | some (.obj fs) => fs
                | some _ => []
                | none => []
              some (validate_batch_item raw n original)

/-! ## skills_fetcher.py

The four extraction grammars are regular expressions whose atoms are all
character classes under `?`/`*`/`+` quantifiers and literals.  The matcher
below implements Python `re` semantics for exactly this fragment: leftmost
non-overlapping matches, greedy quantifiers with backtracking (longest
candidate first). -/

inductive Quant where
  | one
  | star
  | plus
  | opt

/-- One atom of a pattern: a character class with a quantifier, possibly
inside a numbered capture group (a group spanning several atoms tags each of
them with the same number; the capture is their concatenation). -/
structure ReItem where
  cls : Char → Bool
  quant : Quant
  group : Option Nat

/-- The ways `it` can consume a prefix of `s`, in backtracking priority
order (greedy: longest first). -/
def reSplits (q : Quant) (cls : Char → Bool) (s : List Char) :
    List (List Char × List Char) :=
  match q with
  | .one =>
      match s with
      | c :: rest => if cls c then [([c], rest)] else []
      | [] => []
  | .star =>
      let run := s.takeWhile cls
      (List.range (run.length + 1)).reverse.map fun k =>
        (run.take k, run.drop k ++ s.drop run.length)
  | .plus =>
      let run := s.takeWhile cls
      ((List.range (run.length + 1)).reverse.map fun k =>
        (run.take k, run.drop k ++ s.drop run.length)).dropLast
  | .opt =>
      match s with
      | c :: rest => if cls c then [([c], rest), ([], s)] else [([], s)]
      | [] => [([], [])]

/-- Anchored match of a pattern at the head of `s`: per-atom captured text
plus the remaining input, with full backtracking. -/
def matchSeq : List ReItem → List Char →
    Option (List (Option Nat × String) × List Char)
  | [], s => some ([], s)
  | it :: rest, s =>
      (reSplits it.quant it.cls s).findSome? fun c =>
        (matchSeq rest c.2).map fun r => ((it.group, String.mk c.1) :: r.1, r.2)

/-- Text of capture group `g`: concatenation of the atoms tagged `g`. -/
def groupStr (caps : List (Option Nat × String)) (g : Nat) : String :=
  String.join (caps.filterMap fun c => if c.1 = some g then some c.2 else none)

/-- `re.finditer`: scan left to right, yield non-overlapping matches. -/
def finditerAux (items : List ReItem) : Nat → List Char →
    List (List (Option Nat × String))
  | 0, _ => []
  | fuel + 1, s =>
      match matchSeq items s with
      | some (caps, rest) =>
          if rest.length < s.length then caps :: finditerAux items fuel rest
          else
            match s with
            | [] => [caps]
            | _ :: t => caps :: finditerAux items fuel t
      | none =>
          match s with
          | [] => []
          | _ :: t => finditerAux items fuel t

def finditer (items : List ReItem) (s : List Char) :
    List (List (Option Nat × String)) :=
  finditerAux items (s.length + 1) s

/-! ### The four grammars of `parse_leaderboard` -/

def reItem (cls : Char → Bool) (q : Quant) (g : Option Nat) : ReItem :=
  ⟨cls, q, g⟩

/-- Python `\s` (ASCII fragment): same set as `str.strip()` removes. -/
def spaceC : Char → Bool := pyIsSpace

/-- Python `\w` (ASCII fragment). -/
def wordC (c : Char) : Bool := c.isAlphanum || c = '_'

/-- `[\w-]`. -/
def wordHy (c : Char) : Bool := wordC c || c = '-'

/-- `[a-z0-9-]`. -/
def nameC1 (c : Char) : Bool := ('a' ≤ c && c ≤ 'z') || c.isDigit || c = '-'

/-- `[a-zA-Z0-9_-]`. -/
def nameC2 (c : Char) : Bool := c.isAlphanum || c = '_' || c = '-'

/-- `[\d.]`. -/
def instC (c : Char) : Bool := c.isDigit || c = '.'

/-- `\s*\n\s*`, the separator between the captured fields. -/
def gapItems : List ReItem :=
  [reItem spaceC .star none, reItem (· = '\n') .one none, reItem spaceC .star none]

/-- `([\w-]+/[\w-]+)`, capture group 3. -/
def ownerItems : List ReItem :=
  [reItem wordHy .plus (some 3), reItem (· = '/') .one (some 3),
   reItem wordHy .plus (some 3)]

/-- `([\d.]+K?)`, capture group 4. -/
def installsItems : List ReItem :=
  [reItem instC .plus (some 4), reItem (· = 'K') .opt (some 4)]

/-- `(\d+)\s*\n\s*([a-z0-9-]+)\s*\n\s*([\w-]+/[\w-]+)\s*\n\s*([\d.]+K?)`. -/
def pattern1 : List ReItem :=
  [reItem Char.isDigit .plus (some 1)] ++ gapItems ++
    [reItem nameC1 .plus (some 2)] ++ gapItems ++ ownerItems ++ gapItems ++
    installsItems

/-- Same as `pattern1` with `([a-zA-Z0-9_-]+)` as group 2. -/
def pattern2 : List ReItem :=
  [reItem Char.isDigit .plus (some 1)] ++ gapItems ++
    [reItem nameC2 .plus (some 2)] ++ gapItems ++ ownerItems ++ gapItems ++
    installsItems

/-- `(\d+)\s*\n\s*###\s*([\w-]+)\s*\n\s*([\w-]+/[\w-]+)\s*\n\s*([\d.]+K?)`. -/
def pattern3 : List ReItem :=
  [reItem Char.isDigit .plus (some 1)] ++ gapItems ++
    [reItem (· = '#') .one none, reItem (· = '#') .one none,
     reItem (· = '#') .one none, reItem spaceC .star none,
     reItem wordHy .plus (some 2)] ++ gapItems ++ ownerItems ++ gapItems ++
    installsItems

/-- `(\d+)\s+([a-zA-Z0-9_-]+)\s+([\w-]+/[\w-]+)\s+([\d.]+K?)`. -/
def pattern4 : List ReItem :=
  [reItem Char.isDigit .plus (some 1), reItem spaceC .plus none,
   reItem nameC2 .plus (some 2), reItem spaceC .plus none] ++ ownerItems ++
    [reItem spaceC .plus none] ++ installsItems

def PATTERNS : List (List ReItem) :=
  [pattern1, pattern2, pattern3, pattern4]

/-! ### `_parse_installs` -/

/-- Result of Python `float(s)`: an IEEE-754 binary64 value.  A finite
value is `(-1)^sign * m * 2^e` (the exponent is clamped below at the
subnormal unit `2^(-1074)`; `m = 0` encodes zero); the infinities and nan
are separate.  Exponent forms of the literal (`1e3`) are outside the
modelled fragment (the callers only pass digit/dot/K strings). -/
inductive PyFloat where
  | fin (sign : Bool) (m : Nat) (e : Int)
  | inf (neg : Bool)
  | nan

/-- Digit run to a natural number. -/
def digitsToNat (s : List Char) : Nat :=
  s.foldl (fun n c => n * 10 + (c.toNat - 48)) 0

/-- Unsigned decimal literal `digits [. digits]` / `. digits` with at least
one digit and at most one dot, returned as mantissa digits and the number of
fractional digits (so `"7.0"` gives `(70, 1)`, whose value is `70 / 10`). -/
def parseDecimal (s : List Char) : Option (Nat × Nat) :=
  let intPart := s.takeWhile Char.isDigit
  match s.drop intPart.length with
  | [] => if intPart.isEmpty then none else some (digitsToNat intPart, 0)
  | '.' :: frac =>
      if frac.all Char.isDigit ∧ ¬(intPart.isEmpty ∧ frac.isEmpty) then
        some (digitsToNat (intPart ++ frac), frac.length)
      else none
  | _ => none

/-- The EXACT rational value of a parsed decimal literal.  This is the
spec's idealized reading of `float()`; the program itself computes in
binary64 (`floatOfDec` below).  Kept only to state where the two part
ways. -/
def spec_ratOfDecimal (pr : Nat × Nat) : ℚ :=
  (pr.1 : ℚ) / (10 : ℚ) ^ pr.2

/-- Exact truncation toward zero of a rational: the spec's idealized
reading of `int(float(p) * 1000)`. -/
def spec_trunc (q : ℚ) : Int :=
  if 0 ≤ q then ⌊q⌋ else -⌊-q⌋

/-- Number of binary digits of `n` (`0` for `0`).  `fuel` bounds the
recursion depth (an embedding artifact; callers pass a bound derived from
the literal's length). -/
def bitLen : Nat → Nat → Nat
  | 0, _ => 0
  | fuel + 1, n => if n = 0 then 0 else bitLen fuel (n / 2) + 1

/-- `a / b` (`b > 0`) rounded to the nearest integer, ties to even. -/
def divNE (a b : Nat) : Nat :=
  let q := a / b
  let r := a % b
  if 2 * r < b then q
  else if b < 2 * r then q + 1
  else if q % 2 = 0 then q else q + 1

/-- The positive rational `N / D` rounded to the nearest IEEE-754 binary64
value (round-to-nearest, ties-to-even): find the binade `2^E ≤ N/D <
2^(E+1)`, round `N/D / 2^e` to an integer mantissa at `e = max (E - 52)
(-1074)` (53 significant bits, subnormal clamp), and overflow to the
infinity when the rounded value reaches `2^1024`.  `fuel` must be at least
the bit length of `N` and of `D`. -/
def roundF64Pos (fuel N D : Nat) (sign : Bool) : PyFloat :=
  let E0 : Int := (bitLen fuel N : Int) - (bitLen fuel D : Int)
  let ge2pow : Int → Bool := fun X =>
    if 0 ≤ X then decide (D * 2 ^ X.toNat ≤ N) else decide (D ≤ N * 2 ^ (-X).toNat)
  let E : Int := if ge2pow E0 then E0 else E0 - 1
  let e : Int := max (E - 52) (-1074)
  let m : Nat :=
    if 0 ≤ e then divNE N (D * 2 ^ e.toNat) else divNE (N * 2 ^ (-e).toNat) D
  if 2 ^ 1024 ≤ m * 2 ^ e.toNat then .inf sign else .fin sign m e

/-- Python `float()` of an unsigned decimal literal `(mantissa, fracLen)`:
the correctly rounded binary64 value of `mantissa / 10 ^ fracLen`. -/
def floatOfDec (sign : Bool) (fuel : Nat) (pr : Nat × Nat) : PyFloat :=
  if pr.1 = 0 then .fin sign 0 0
  else roundF64Pos fuel pr.1 (10 ^ pr.2) sign

/-- The sign-stripped body of Python `float(s)` (modelled fragment). -/
def pyFloatBody (cs : List Char) (neg : Bool) : Option PyFloat :=
  if cs.map Char.toUpper = "INF".data ∨ cs.map Char.toUpper = "INFINITY".data then
    some (.inf neg)
  else if cs.map Char.toUpper = "NAN".data then some .nan
  else (parseDecimal cs).map fun pr =>
    floatOfDec neg (4 * cs.length + 64) pr

/-- Python `float(s)` (modelled fragment): optional sign, then the body. -/
def parsePyFloat (s : String) : Option PyFloat :=
  match s.data with
  | c :: rest =>
      if c = '-' then pyFloatBody rest true
      else if c = '+' then pyFloatBody rest false
      else pyFloatBody (c :: rest) false
  | [] => pyFloatBody [] false

/-- The sign-stripped body of Python `int(s)`. -/
def pyIntBody (cs : List Char) : Option Nat :=
  if cs.isEmpty ∨ ¬cs.all Char.isDigit then none else some (digitsToNat cs)

/-- Python `int(s)` for a string (modelled fragment: optional sign and a
nonempty digit run). -/
def parsePyInt (s : String) : Option Int :=
  match s.data with
  | c :: rest =>
      if c = '-' then (pyIntBody rest).map fun n => -(n : Int)
      else if c = '+' then (pyIntBody rest).map fun n => (n : Int)
      else (pyIntBody (c :: rest)).map fun n => (n : Int)
  | [] => (pyIntBody []).map fun n => (n : Int)

/-- IEEE binary64 multiplication of a float by the exact constant 1000:
the exact product is rounded to 53 significant bits (ties to even), with
overflow to the infinity at `2^1024`. -/
def f64mul1000 : PyFloat → PyFloat
  | .nan => .nan
  | .inf s => .inf s
  | .fin s m e =>
      if m = 0 then .fin s 0 0
      else
        let M2 := m * 1000
        let B := bitLen 128 M2
        if B ≤ 53 then .fin s M2 e
        else
          let m2 := divNE M2 (2 ^ (B - 53))
          let e2 := e + (B - 53)
          if 2 ^ 1024 ≤ m2 * 2 ^ e2.toNat then .inf s else .fin s m2 e2

/-- Python `int(x)` for a finite float: truncation toward zero. -/
def pyTruncF64 (sign : Bool) (m : Nat) (e : Int) : Int :=
  let mag : Nat := if 0 ≤ e then m * 2 ^ e.toNat else m / 2 ^ (-e).toNat
  if sign then -(mag : Int) else (mag : Int)

/-- `int(float_value * 1000)` with the program's exception split:
`int(inf * 1000) = int(inf)` raises an uncaught `OverflowError`;
`int(nan * 1000) = int(nan)` raises a `ValueError` that the surrounding
`except ValueError` catches, yielding 0. -/
def timesK_result (f : PyFloat) : Except Unit Int :=
  match f64mul1000 f with
  | .fin s m e => .ok (pyTruncF64 s m e)
  | .inf _ => .error ()
  | .nan => .ok 0

/-- `SkillsFetcher._parse_installs`.  `int(float * 1000)` raises an uncaught
`OverflowError` when the float is an infinity — spelled (`"inf"`) or by
overflow of a huge literal — because the surrounding `except` only catches
`ValueError`; hence the `Except`. -/
def parse_installs (installs_str : String) : Except Unit Int :=
  if installs_str.data.isEmpty then .ok 0
  else if (pyUpper (pyStrip installs_str)).data.contains 'K' then
    match parsePyFloat (pyRemoveChar (pyUpper (pyStrip installs_str)) 'K') with
    | some f => timesK_result f
    | none => .ok 0
  else
    match parsePyInt (pyUpper (pyStrip installs_str)) with
    | some n => .ok n
    | none => .ok 0

/-! ### `parse_leaderboard` -/

/-- One entry of the parsed leaderboard. -/
structure Skill where
  rank : Nat
  name : String
  owner : String
  installs : Int
  url : String

/-- The exceptions `parse_leaderboard` can raise. -/
inductive LbErr where
  | notFound
  | overflowError

/-- The ordered marker preference list. -/
def MARKERS : List String :=
  ["SKILLS LEADERBOARD", "Skills Leaderboard", "LEADERBOARD", "Leaderboard"]

/-- First marker variant found in the text, with its position. -/
def find_marker (html_content : String) : Option Nat :=
  MARKERS.findSome? fun m => pyFind html_content.data m.data

/-- The body of the per-match loop: build the skill dict entry and apply the
keep-the-lowest-rank dedup rule. -/
def dict_step (base_url : String) (d : List (String × Skill))
    (caps : List (Option Nat × String)) : Except LbErr (List (String × Skill)) := do
  let rank := digitsToNat (groupStr caps 1).data
  let name := groupStr caps 2
  let owner := groupStr caps 3
  let installs ← (parse_installs (groupStr caps 4)).mapError fun _ => LbErr.overflowError
  let sk : Skill :=
    { rank := rank, name := name, owner := owner, installs := installs,
      url := base_url ++ "/" ++ owner ++ "/" ++ name }
  match d.lookup name with
  | none => .ok (setKey d name sk)
  | some old => if old.rank > rank then .ok (setKey d name sk) else .ok d

/-- The grammar cascade: feed each pattern's matches into the shared dict and
stop at the first pattern that leaves it nonempty. -/
def pattern_loop (base_url : String) (content : List Char) :
    List (List ReItem) → List (String × Skill) → Except LbErr (List (String × Skill))
  | [], d => .ok d
  | p :: ps, d => do
      let d2 ← (finditer p content).foldlM (dict_step base_url) d
      if d2.isEmpty then pattern_loop base_url content ps d2 else .ok d2

/-- Ascending-by-rank comparison used by `sorted(..., key=rank)`. -/
def rankLe (a b : Skill) : Prop := a.rank ≤ b.rank

instance : DecidableRel rankLe := fun a b => inferInstanceAs (Decidable (a.rank ≤ b.rank))

/-- `SkillsFetcher.parse_leaderboard` (with `self.base_url` explicit). -/
def parse_leaderboard (base_url : String) (html_content : String) :
    Except LbErr (List Skill) := do
  match find_marker html_content with
  | none => .error .notFound
  | some start =>
      let content := html_content.data.drop start
      let d ← pattern_loop base_url content PATTERNS []
      .ok ((List.insertionSort rankLe (d.map Prod.snd)).take 20)

/-! ## General helper lemmas -/

theorem char_eq_iff_toNat {c d : Char} : c = d ↔ c.toNat = d.toNat :=
  ⟨fun h => by rw [h], fun h => Char.eq_of_val_eq (UInt32.ext h)⟩

theorem isDigit_iff {c : Char} : c.isDigit = true ↔ 48 ≤ c.toNat ∧ c.toNat ≤ 57 := by
  simp only [Char.isDigit, Bool.and_eq_true, decide_eq_true_eq]
  constructor
  · rintro ⟨h1, h2⟩
    have g1 : (48 : UInt32).toNat ≤ c.val.toNat := h1
    have g2 : c.val.toNat ≤ (57 : UInt32).toNat := h2
    exact ⟨g1, g2⟩
  · rintro ⟨h1, h2⟩
    have g1 : (48 : UInt32).toNat ≤ c.val.toNat := h1
    have g2 : c.val.toNat ≤ (57 : UInt32).toNat := h2
    exact ⟨g1, g2⟩

theorem char_ofNat_toNat {n : Nat} (h : n.isValidChar) :
    (Char.ofNat n).toNat = n := by
  simp only [Char.ofNat, dif_pos h, Char.ofNatAux, Char.toNat]
  rfl

theorem digit_toUpper {c : Char} (h : c.isDigit = true) : c.toUpper = c := by
  obtain ⟨h1, h2⟩ := isDigit_iff.1 h
  simp only [Char.toUpper]
  rw [if_neg]
  omega

theorem digit_not_space {c : Char} (h : c.isDigit = true) : pyIsSpace c = false := by
  obtain ⟨h1, h2⟩ := isDigit_iff.1 h
  simp only [pyIsSpace, Bool.or_eq_false_iff, decide_eq_false_iff_not]
  refine ⟨⟨⟨⟨⟨?_, ?_⟩, ?_⟩, ?_⟩, ?_⟩, ?_⟩ <;>
    (rw [char_eq_iff_toNat]; intro he; rw [he] at h1 h2; simp at h1 h2)

theorem digit_ne_K {c : Char} (h : c.isDigit = true) : ¬ c = 'K' := by
  obtain ⟨h1, h2⟩ := isDigit_iff.1 h
  rw [char_eq_iff_toNat]
  intro he; rw [he] at h1 h2; simp at h1 h2

theorem toUpper_isDigit_eq_false {c : Char} (h : c.isDigit = false) :
    (c.toUpper).isDigit = false := by
  simp only [Char.toUpper]
  split
  · rename_i hn
    have hv : Nat.isValidChar (c.toNat - 32) := Or.inl (by omega)
    have ht := char_ofNat_toNat hv
    rw [Bool.eq_false_iff]
    intro hd
    obtain ⟨hd1, hd2⟩ := isDigit_iff.1 hd
    rw [ht] at hd1 hd2
    omega
  · exact h

theorem instC_not_space {c : Char} (h : instC c = true) : pyIsSpace c = false := by
  rcases Bool.or_eq_true_iff.1 h with hd | he
  · exact digit_not_space hd
  · have : c = '.' := by simpa using he
    subst this; decide

theorem instC_toUpper {c : Char} (h : instC c = true) : c.toUpper = c := by
  rcases Bool.or_eq_true_iff.1 h with hd | he
  · exact digit_toUpper hd
  · have : c = '.' := by simpa using he
    subst this; decide

theorem instC_ne_K {c : Char} (h : instC c = true) : ¬ c = 'K' := by
  rcases Bool.or_eq_true_iff.1 h with hd | he
  · exact digit_ne_K hd
  · have : c = '.' := by simpa using he
    subst this; decide

theorem dropWhile_all_false {p : Char → Bool} :
    ∀ {l : List Char}, (∀ c ∈ l, p c = false) → l.dropWhile p = l := by
  intro l h
  cases l with
  | nil => rfl
  | cons a t =>
      rw [List.dropWhile_cons, h a (List.mem_cons_self a t)]
      simp

theorem pyStrip_eq_self {s : String} (h : ∀ c ∈ s.data, pyIsSpace c = false) :
    pyStrip s = s := by
  unfold pyStrip
  rw [dropWhile_all_false h, dropWhile_all_false (fun c hc => h c (List.mem_reverse.1 hc)),
    List.reverse_reverse]

theorem pyUpper_eq_self {s : String} (h : ∀ c ∈ s.data, c.toUpper = c) :
    pyUpper s = s := by
  unfold pyUpper
  rw [List.map_congr_left h]
  simp

theorem mem_pyStrip {s : String} {c : Char} (h : c ∈ (pyStrip s).data) :
    c ∈ s.data := by
  unfold pyStrip at h
  simp only [List.mem_reverse] at h
  have h2 := (List.dropWhile_sublist _).mem h
  rw [List.mem_reverse] at h2
  exact (List.dropWhile_sublist _).mem h2

theorem mem_pyRemoveChar {s : String} {k c : Char} (h : c ∈ (pyRemoveChar s k).data) :
    c ∈ s.data := by
  unfold pyRemoveChar at h
  exact (List.filter_sublist _).mem h

theorem mem_pyUpper {s : String} {c : Char} (h : c ∈ (pyUpper s).data) :
    ∃ c0 ∈ s.data, c = c0.toUpper := by
  unfold pyUpper at h
  obtain ⟨c0, hc0, he⟩ := List.mem_map.1 h
  exact ⟨c0, hc0, he.symm⟩

theorem takeWhile_all_false {p : Char → Bool} {l : List Char}
    (h : ∀ c ∈ l, p c = false) : l.takeWhile p = [] := by
  cases l with
  | nil => rfl
  | cons a t =>
      rw [List.takeWhile_cons, h a (List.mem_cons_self a t)]
      simp

theorem parseDecimal_no_digit {cs : List Char}
    (h : ∀ c ∈ cs, c.isDigit = false) : parseDecimal cs = none := by
  unfold parseDecimal
  simp only [takeWhile_all_false h, List.length_nil, List.drop_zero]
  split
  · simp
  · rename_i frac
    have hfr : ∀ c ∈ frac, c.isDigit = false := fun c hc =>
      h c (List.mem_cons_of_mem _ hc)
    rw [if_neg]
    intro ⟨hall, hne⟩
    cases frac with
    | nil => exact hne ⟨rfl, rfl⟩
    | cons a t =>
        have hat := List.all_eq_true.1 hall a (List.mem_cons_self a t)
        rw [hfr a (List.mem_cons_self a t)] at hat
        exact Bool.false_ne_true hat
  · rfl

/-! ## Claim C5: the installs-string parser -/

theorem pyIntBody_no_digit {cs : List Char} (h : ∀ c ∈ cs, c.isDigit = false) :
    pyIntBody cs = none := by
  unfold pyIntBody
  rw [if_pos]
  cases cs with
  | nil => exact Or.inl rfl
  | cons a t =>
      refine Or.inr fun hall => ?_
      have hat := List.all_eq_true.1 hall a (List.mem_cons_self a t)
      rw [h a (List.mem_cons_self a t)] at hat
      exact Bool.false_ne_true hat

theorem parsePyInt_no_digit {s : String} (h : ∀ c ∈ s.data, c.isDigit = false) :
    parsePyInt s = none := by
  unfold parsePyInt
  rcases hd : s.data with _ | ⟨c, rest⟩
  · simp only [hd]
    rfl
  · have hrest : ∀ x ∈ rest, x.isDigit = false := fun x hx =>
      h x (hd ▸ List.mem_cons_of_mem _ hx)
    have hall : ∀ x ∈ c :: rest, x.isDigit = false := fun x hx => h x (hd ▸ hx)
    simp only [hd]
    split
    · rw [pyIntBody_no_digit hrest]; rfl
    · split
      · rw [pyIntBody_no_digit hrest]; rfl
      · rw [pyIntBody_no_digit hall]; rfl

theorem pyFloatBody_no_digit {cs : List Char} (neg : Bool)
    (h : ∀ c ∈ cs, c.isDigit = false) :
    pyFloatBody cs neg = some (.inf neg) ∨ pyFloatBody cs neg = some .nan ∨
      pyFloatBody cs neg = none := by
  unfold pyFloatBody
  split
  · exact Or.inl rfl
  · split
    · exact Or.inr (Or.inl rfl)
    · rw [parseDecimal_no_digit h]
      exact Or.inr (Or.inr rfl)

theorem parsePyFloat_no_digit {t : String} (h : ∀ c ∈ t.data, c.isDigit = false) :
    (∃ b, parsePyFloat t = some (.inf b)) ∨ parsePyFloat t = some .nan ∨
      parsePyFloat t = none := by
  unfold parsePyFloat
  rcases hd : t.data with _ | ⟨c, rest⟩
  · simp only [hd]
    rcases pyFloatBody_no_digit false (fun c (hc : c ∈ ([] : List Char)) =>
        nomatch hc) with h1 | h1 | h1 <;> rw [h1]
    · exact Or.inl ⟨false, rfl⟩
    · exact Or.inr (Or.inl rfl)
    · exact Or.inr (Or.inr rfl)
  · have hrest : ∀ x ∈ rest, x.isDigit = false := fun x hx =>
      h x (hd ▸ List.mem_cons_of_mem _ hx)
    have hall : ∀ x ∈ c :: rest, x.isDigit = false := fun x hx => h x (hd ▸ hx)
    simp only [hd]
    split
    · rcases pyFloatBody_no_digit true hrest with h1 | h1 | h1 <;> rw [h1]
      · exact Or.inl ⟨true, rfl⟩
      · exact Or.inr (Or.inl rfl)
      · exact Or.inr (Or.inr rfl)
    · split
      · rcases pyFloatBody_no_digit false hrest with h1 | h1 | h1 <;> rw [h1]
        · exact Or.inl ⟨false, rfl⟩
        · exact Or.inr (Or.inl rfl)
        · exact Or.inr (Or.inr rfl)
      · rcases pyFloatBody_no_digit false hall with h1 | h1 | h1 <;> rw [h1]
        · exact Or.inl ⟨false, rfl⟩
        · exact Or.inr (Or.inl rfl)
        · exact Or.inr (Or.inr rfl)

theorem parse_installs_no_digit {s : String} (h : ∀ c ∈ s.data, c.isDigit = false)
    (hinf : ∀ b, parsePyFloat (pyRemoveChar (pyUpper (pyStrip s)) 'K') ≠
      some (PyFloat.inf b)) :
    parse_installs s = .ok 0 := by
  unfold parse_installs
  split
  · rfl
  · have h2 : ∀ c ∈ (pyUpper (pyStrip s)).data, c.isDigit = false := by
      intro c hc
      obtain ⟨c0, hc0, he⟩ := mem_pyUpper hc
      subst he
      exact toUpper_isDigit_eq_false (h c0 (mem_pyStrip hc0))
    split
    · have h3 : ∀ c ∈ (pyRemoveChar (pyUpper (pyStrip s)) 'K').data, c.isDigit = false :=
        fun c hc => h2 c (mem_pyRemoveChar hc)
      rcases parsePyFloat_no_digit h3 with ⟨b, hb⟩ | hn | hn
      · exact absurd hb (hinf b)
      · rw [hn]
        rfl
      · rw [hn]
    · rw [parsePyInt_no_digit h2]

deriving instance DecidableEq for PyFloat

deriving instance DecidableEq for Except

theorem instC_ne_sign {c : Char} (h : instC c = true) : ¬ c = '-' ∧ ¬ c = '+' := by
  rcases Bool.or_eq_true_iff.1 h with hd | he
  · obtain ⟨h1, h2⟩ := isDigit_iff.1 hd
    constructor <;> (rw [char_eq_iff_toNat]; intro he2; rw [he2] at h1 h2; simp at h1 h2)
  · have hdot : c = '.' := by simpa using he
    subst hdot
    exact ⟨by decide, by decide⟩

theorem parsePyFloat_instC {p : String} (hne : p.data ≠ [])
    (hc : ∀ c ∈ p.data, instC c = true) :
    parsePyFloat p = (parseDecimal p.data).map fun pr =>
      floatOfDec false (4 * p.data.length + 64) pr := by
  unfold parsePyFloat
  rcases hd : p.data with _ | ⟨c, rest⟩
  · exact absurd hd hne
  · have hcc : instC c = true := hc c (hd ▸ List.mem_cons_self c rest)
    obtain ⟨hm, hp⟩ := instC_ne_sign hcc
    simp only [hd, if_neg hm, if_neg hp]
    unfold pyFloatBody
    have hup : (c :: rest).map Char.toUpper = c :: rest := by
      have hcongr : (c :: rest).map Char.toUpper = (c :: rest).map id :=
        List.map_congr_left fun x hx => instC_toUpper (hc x (hd ▸ hx))
      rw [hcongr, List.map_id]
    rw [hup, if_neg, if_neg]
    · rw [show "NAN".data = ['N', 'A', 'N'] from rfl]
      intro h1
      injection h1 with h1a _
      exact absurd (h1a ▸ hcc) (by decide)
    · intro hor
      rcases hor with h1 | h1
      · rw [show "INF".data = ['I', 'N', 'F'] from rfl] at h1
        injection h1 with h1a _
        exact absurd (h1a ▸ hcc) (by decide)
      · rw [show "INFINITY".data = ['I', 'N', 'F', 'I', 'N', 'I', 'T', 'Y'] from rfl] at h1
        injection h1 with h1a _
        exact absurd (h1a ▸ hcc) (by decide)

theorem parse_installs_K (p : String) (m e : Nat) (hne : p.data ≠ [])
    (hc : ∀ c ∈ p.data, instC c = true) (hq : parseDecimal p.data = some (m, e)) :
    parse_installs (p ++ "K") =
      timesK_result (floatOfDec false (4 * p.data.length + 64) (m, e)) := by
  have hdata : (p ++ "K").data = p.data ++ ['K'] := rfl
  have hKc : ∀ c ∈ (p ++ "K").data, instC c = true ∨ c = 'K' := by
    rw [hdata]
    intro c hcm
    rcases List.mem_append.1 hcm with h1 | h1
    · exact Or.inl (hc c h1)
    · exact Or.inr (by simpa using h1)
  have hstrip : pyStrip (p ++ "K") = p ++ "K" := by
    apply pyStrip_eq_self
    intro c hcm
    rcases hKc c hcm with h1 | h1
    · exact instC_not_space h1
    · subst h1; decide
  have hupper : pyUpper (p ++ "K") = p ++ "K" := by
    apply pyUpper_eq_self
    intro c hcm
    rcases hKc c hcm with h1 | h1
    · exact instC_toUpper h1
    · subst h1; decide
  have hcontains : ((p ++ "K")).data.contains 'K' = true := by
    rw [hdata]
    simp
  have hremove : pyRemoveChar (p ++ "K") 'K' = p := by
    unfold pyRemoveChar
    rw [hdata, List.filter_append]
    have h1 : p.data.filter (fun c => c ≠ 'K') = p.data :=
      List.filter_eq_self.2 fun c hcm => decide_eq_true (instC_ne_K (hc c hcm))
    rw [h1]
    simp
  have hnonempty : (p ++ "K").data.isEmpty = false := by
    rw [hdata]
    cases p.data <;> simp
  have hfloat : parsePyFloat p =
      some (floatOfDec false (4 * p.data.length + 64) (m, e)) := by
    rw [parsePyFloat_instC hne hc, hq]
    rfl
  unfold parse_installs
  simp only [hnonempty, hstrip, hupper, hcontains, hremove, hfloat]
  simp

/-- A 310-digit installs string with the K suffix: `float("9"*310)`
overflows binary64 to the positive infinity. -/
def c5_bignines : String := ⟨List.replicate 310 '9' ++ ['K']⟩

/-- Claim C5 is falsified twice.  (1) `"infK"` contains no digit, yet
`_parse_installs` does not return 0: `float("INF")` succeeds with an
infinity and `int(inf * 1000)` raises an uncaught `OverflowError` (the
handler only catches `ValueError`).  (2) the K rule is not an exact
multiply-by-1000-and-truncate: the program computes `int(float(p) * 1000)`
in IEEE binary64, so `"1.001K"` gives 1000 (the double nearest 1.001 lies
below it) where exact truncation gives 1001, and a 310-digit prefix
overflows `float()` to the infinity and raises instead of returning a
number. -/
theorem C5_counterexample :
    ((∀ c ∈ "infK".data, c.isDigit = false) ∧ parse_installs "infK" = .error ()) ∧
    (parse_installs "1.001K" = .ok 1000 ∧
      spec_trunc (spec_ratOfDecimal (1001, 3) * 1000) = 1001) ∧
    parse_installs c5_bignines = .error () :=
  ⟨⟨by decide, by decide⟩,
   ⟨by decide, by norm_num [spec_ratOfDecimal, spec_trunc]⟩,
   by decide⟩

/-- Claim C5 (amended): the installs-string parser maps `"7.0K"` to 7000,
`"300"` to 300 and the empty string to 0; a string with no digits returns 0
whenever its float value is not an infinity (`"nanK"` also returns 0 since
`int(nan)` raises the caught `ValueError`); and a trailing `"K"` yields
`int(float(prefix) * 1000)` computed in IEEE binary64 — not the exact
truncation of `prefix × 1000`. -/
theorem C5_theorem :
    parse_installs "7.0K" = .ok 7000 ∧
    parse_installs "300" = .ok 300 ∧
    parse_installs "" = .ok 0 ∧
    parse_installs "nanK" = .ok 0 ∧
    (∀ s : String, (∀ c ∈ s.data, c.isDigit = false) →
      (∀ b, parsePyFloat (pyRemoveChar (pyUpper (pyStrip s)) 'K') ≠
        some (PyFloat.inf b)) →
      parse_installs s = .ok 0) ∧
    (∀ (p : String) (m e : Nat), p.data ≠ [] → (∀ c ∈ p.data, instC c = true) →
      parseDecimal p.data = some (m, e) →
      parse_installs (p ++ "K") =
        timesK_result (floatOfDec false (4 * p.data.length + 64) (m, e))) :=
  ⟨by decide, by decide, by rfl, by decide,
   fun s h hinf => parse_installs_no_digit h hinf,
   fun p m e hne hc hq => parse_installs_K p m e hne hc hq⟩

/-- Witness for C5: the universally quantified parts applied at the concrete
inputs `"abc"` (no digits) and `"300" ++ "K"`, whose binary64 pipeline value
evaluates to 300000. -/
theorem C5_witness :
    parse_installs "abc" = .ok 0 ∧
    parse_installs ("300" ++ "K") =
      timesK_result (floatOfDec false (4 * "300".data.length + 64) (300, 0)) ∧
    timesK_result (floatOfDec false (4 * "300".data.length + 64) (300, 0)) =
      .ok 300000 :=
  ⟨C5_theorem.2.2.2.2.1 "abc" (by decide) (by decide),
   C5_theorem.2.2.2.2.2 "300" 300 0 (by decide) (by decide) (by decide),
   by decide⟩

/-! ## Claim C8: outcome classification of model-call attempts -/

theorem chat_attempts_step_retry (oracle : Nat → AttemptOutcome)
    (max_retries a : Nat) (e : PyExc) (st : Option Int) (ha : a < max_retries)
    (ho : oracle a = .failure e st) (hr : should_retry e st = true) :
    chat_attempts oracle max_retries a = chat_attempts oracle max_retries (a + 1) := by
  rw [chat_attempts, ho]
  dsimp only
  rw [dif_neg]
  push_neg
  exact ⟨by omega, by simp [hr]⟩

theorem chat_attempts_fatal (oracle : Nat → AttemptOutcome) (max_retries a : Nat)
    (e : PyExc) (st : Option Int) (ho : oracle a = .failure e st)
    (hr : should_retry e st = false) :
    chat_attempts oracle max_retries a = .error (e, st) := by
  rw [chat_attempts, ho]
  dsimp only
  rw [dif_pos (Or.inr hr)]

/-- Claim C8: every attempt outcome is classified exactly as specified —
timeouts, connection errors, JSON-decode failures and contentless-body
`ValueError`s are retryable; HTTP 408, 409, 429 and every 5xx status are
retryable; the retry loop issues the next attempt exactly when attempts
remain and the failure is retryable; HTTP 401 is fatal and never retried. -/
theorem C8_theorem :
    (∀ st, should_retry .timeout st = true) ∧
    (∀ st, should_retry .connectionError st = true) ∧
    (∀ st, should_retry .jsonDecodeError st = true) ∧
    (∀ st, should_retry .valueError st = true) ∧
    (∀ s : Int, (s = 408 ∨ s = 409 ∨ s = 429 ∨ (500 ≤ s ∧ s ≤ 599)) →
      should_retry .httpError (some s) = true) ∧
    should_retry .httpError (some 401) = false ∧
    (∀ (oracle : Nat → AttemptOutcome) (max_retries a : Nat) (e : PyExc)
      (st : Option Int), a < max_retries → oracle a = .failure e st →
      should_retry e st = true →
      chat_attempts oracle max_retries a = chat_attempts oracle max_retries (a + 1)) ∧
    (∀ (oracle : Nat → AttemptOutcome) (max_retries a : Nat),
      oracle a = .failure .httpError (some 401) →
      chat_attempts oracle max_retries a = .error (.httpError, some 401)) := by
  refine ⟨fun st => rfl, fun st => rfl, fun st => rfl, fun st => rfl, ?_, by decide,
    fun oracle mr a e st ha ho hr => chat_attempts_step_retry oracle mr a e st ha ho hr,
    fun oracle mr a ho => chat_attempts_fatal oracle mr a _ _ ho (by decide)⟩
  intro s hs
  simp only [should_retry]
  split
  · rfl
  · rename_i hcond
    simp only [Bool.or_eq_true, decide_eq_true_eq, not_or] at hcond
    rw [if_pos]
    simp only [Bool.and_eq_true, decide_eq_true_eq]
    obtain ⟨⟨hc1, hc2⟩, hc3⟩ := hcond
    rcases hs with h | h | h | h
    · exact absurd h hc1
    · exact absurd h hc2
    · exact absurd h hc3
    · exact ⟨h.1, h.2⟩

/-- Witness for C8: the quantified parts applied at concrete statuses, a
concrete always-timeout oracle, and a concrete 401 oracle. -/
theorem C8_witness :
    should_retry .httpError (some 429) = true ∧
    chat_attempts (fun _ => .failure .timeout none) 3 1 =
      chat_attempts (fun _ => .failure .timeout none) 3 2 ∧
    chat_attempts (fun _ => .failure .httpError (some 401)) 3 1 =
      .error (.httpError, some 401) :=
  ⟨C8_theorem.2.2.2.2.1 429 (Or.inr (Or.inr (Or.inl rfl))),
   C8_theorem.2.2.2.2.2.2.1 (fun _ => .failure .timeout none) 3 1 .timeout none
     (by decide) rfl (by decide),
   C8_theorem.2.2.2.2.2.2.2 (fun _ => .failure .httpError (some 401)) 3 1 rfl⟩

/-! ## Inversion of the single-response parser -/

theorem single_from_data_inv {data : Json} {d : DetailRecord}
    {r : ClassificationResult} (h : single_from_data data d = .ok r) :
    ∃ fs solves, data = Json.obj fs ∧ single_solves fs = Except.ok solves ∧
      r = { name := d.name.getD ""
            summary := (fs.lookup "summary").getD (.str ((d.name.getD "") ++ " 技能"))
            description := (fs.lookup "description").getD (.str "")
            use_case := (fs.lookup "use_case").getD (.str "")
            solves := solves
            category := validate_category fs
            category_zh := (CATEGORIES.lookup (validate_category fs)).getD "其他"
            rules_count := d.rules_count.getD 0
            owner := d.owner.getD ""
            url := d.url.getD ""
            fallback := false } := by
  unfold single_from_data at h
  cases data with
  | obj fs =>
      simp only [Bind.bind, Except.bind] at h
      cases hs : single_solves fs with
      | error e => rw [hs] at h; simp at h
      | ok sv =>
          rw [hs] at h
          simp only [pure, Except.pure, Except.ok.injEq] at h
          exact ⟨fs, sv, rfl, hs, h.symm⟩
  | null => simp [Bind.bind, Except.bind] at h
  | bool b => simp [Bind.bind, Except.bind] at h
  | num n => simp [Bind.bind, Except.bind] at h
  | str s => simp [Bind.bind, Except.bind] at h
  | arr xs => simp [Bind.bind, Except.bind] at h

theorem parse_single_response_inv {text : String} {d : DetailRecord}
    {r : ClassificationResult} (h : parse_single_response text d = .ok r) :
    ∃ data0, decode_single (clean_single text) = .ok data0 ∧
      single_from_data (unwrap_first data0) d = .ok r := by
  unfold parse_single_response at h
  cases hd : decode_single (clean_single text) with
  | error e => rw [hd] at h; simp [Bind.bind, Except.bind] at h
  | ok data0 =>
      rw [hd] at h
      simp only [Bind.bind, Except.bind] at h
      exact ⟨data0, rfl, h⟩

/-! ## Claim C10: owner, url and rules_count are frame-copied from the input -/

/-- Claim C10: every produced result — parsed single response, fallback, or
batch-validated item — carries `owner`, `url` and `rules_count` copied from
the corresponding input record (with the empty/zero defaults), never from
the model response. -/
theorem C10_theorem :
    (∀ (text : String) (d : DetailRecord) (r : ClassificationResult),
      parse_single_response text d = .ok r →
      r.owner = d.owner.getD "" ∧ r.url = d.url.getD "" ∧
        r.rules_count = d.rules_count.getD 0) ∧
    (∀ d : DetailRecord, (fallback_single d).owner = d.owner.getD "" ∧
      (fallback_single d).url = d.url.getD "" ∧
      (fallback_single d).rules_count = d.rules_count.getD 0) ∧
    (∀ (raw : List (String × Json)) (n : String) (orig : DetailRecord),
      (validate_batch_item raw n orig).owner = orig.owner.getD "" ∧
      (validate_batch_item raw n orig).url = orig.url.getD "" ∧
      (validate_batch_item raw n orig).rules_count = orig.rules_count.getD 0) := by
  refine ⟨?_, fun d => ⟨rfl, rfl, rfl⟩, fun raw n orig => ⟨rfl, rfl, rfl⟩⟩
  intro text d r h
  obtain ⟨data0, _, h2⟩ := parse_single_response_inv h
  obtain ⟨fs, sv, _, _, hr⟩ := single_from_data_inv h2
  rw [hr]
  exact ⟨rfl, rfl, rfl⟩

def sample_single_detail : DetailRecord :=
  { name := some "x", owner := some "o/r", url := some "u", rules_count := some 3 }

def sample_single_result : ClassificationResult :=
  { name := "x", summary := .str "x 技能", description := .str ""
    use_case := .str "", solves := .arr [.str "待分析"], category := "other"
    category_zh := "其他", rules_count := 3, owner := "o/r", url := "u"
    fallback := false }

/-- Witness for C10: the single-response part applied to the decoded
response `"{}"` for a concrete detail record. -/
theorem C10_witness :
    parse_single_response "\x7b\x7d" sample_single_detail = .ok sample_single_result ∧
    (sample_single_result.owner = "o/r" ∧ sample_single_result.url = "u" ∧
      sample_single_result.rules_count = 3) :=
  ⟨rfl, C10_theorem.1 "\x7b\x7d" sample_single_detail sample_single_result rfl⟩

/-! ## Claim C2: the category is always a valid key with its paired label -/

theorem lookup_isSome_mem {l : List (String × String)} {k : String}
    (h : (l.lookup k).isSome = true) : k ∈ l.map Prod.fst := by
  induction l with
  | nil => simp [List.lookup] at h
  | cons a t ih =>
      rw [List.lookup] at h
      by_cases hk : (k == a.1) = true
      · simp only [List.map_cons, List.mem_cons]
        exact Or.inl (by simpa using hk)
      · rw [Bool.not_eq_true] at hk
        rw [hk] at h
        exact List.mem_cons_of_mem _ (ih h)

theorem validate_category_hasKey (fs : List (String × Json)) :
    categoriesHasKey (validate_category fs) = true := by
  unfold validate_category
  split
  · split
    · assumption
    · decide
  · decide
  · decide

theorem lookup_getD_of_hasKey {k : String} (h : categoriesHasKey k = true) :
    CATEGORIES.lookup k = some ((CATEGORIES.lookup k).getD "其他") := by
  unfold categoriesHasKey at h
  cases hl : CATEGORIES.lookup k with
  | none => rw [hl] at h; simp at h
  | some v => simp

/-- Claim C2: every result's `category` is one of the 15 fixed keys — an
invalid model-returned category is silently replaced by `"other"` — and its
`category_zh` is always the label mapped from the final category, for the
single-response path, the fallback, and the batch validation alike. -/
theorem C2_theorem :
    (∀ (text : String) (d : DetailRecord) (r : ClassificationResult),
      parse_single_response text d = .ok r →
      r.category ∈ CATEGORIES.map Prod.fst ∧
        CATEGORIES.lookup r.category = some r.category_zh) ∧
    (∀ d : DetailRecord, (fallback_single d).category ∈ CATEGORIES.map Prod.fst ∧
      CATEGORIES.lookup (fallback_single d).category =
        some (fallback_single d).category_zh) ∧
    (∀ (raw : List (String × Json)) (n : String) (orig : DetailRecord),
      (validate_batch_item raw n orig).category ∈ CATEGORIES.map Prod.fst ∧
      CATEGORIES.lookup (validate_batch_item raw n orig).category =
        some (validate_batch_item raw n orig).category_zh) ∧
    (∀ (s : String) (fs : List (String × Json)), categoriesHasKey s = false →
      fs.lookup "category" = some (.str s) → validate_category fs = "other") := by
  refine ⟨?_, ?_, ?_, ?_⟩
  · intro text d r h
    obtain ⟨data0, _, h2⟩ := parse_single_response_inv h
    obtain ⟨fs, sv, _, _, hr⟩ := single_from_data_inv h2
    rw [hr]
    dsimp only
    refine ⟨lookup_isSome_mem ?_, lookup_getD_of_hasKey (validate_category_hasKey fs)⟩
    have := validate_category_hasKey fs
    unfold categoriesHasKey at this
    exact this
  · intro d
    exact ⟨(by decide : "other" ∈ CATEGORIES.map Prod.fst),
      (by decide : CATEGORIES.lookup "other" = some "其他")⟩
  · intro raw n orig
    show validate_category raw ∈ CATEGORIES.map Prod.fst ∧
      CATEGORIES.lookup (validate_category raw) =
        some ((CATEGORIES.lookup (validate_category raw)).getD "其他")
    refine ⟨lookup_isSome_mem ?_, lookup_getD_of_hasKey (validate_category_hasKey raw)⟩
    have := validate_category_hasKey raw
    unfold categoriesHasKey at this
    exact this
  · intro s fs hbad hlook
    unfold validate_category
    rw [hlook]
    simp [hbad]

/-- Witness for C2: the single-response part applied to a response whose
category `"nonsense"` is not one of the 15 keys (spec scenario B). -/
theorem C2_witness :
    parse_single_response "\x7b\"category\": \"nonsense\"\x7d" sample_single_detail =
      .ok sample_single_result ∧
    sample_single_result.category ∈ CATEGORIES.map Prod.fst ∧
    CATEGORIES.lookup sample_single_result.category =
      some sample_single_result.category_zh :=
  ⟨by rfl, C2_theorem.1 "\x7b\"category\": \"nonsense\"\x7d" sample_single_detail
    sample_single_result (by rfl)⟩

/-! ## Claims C1 and C4: the orchestrator's output shape -/

theorem filterMap_length_partition {γ β : Type} (f : γ → Option β) :
    ∀ l : List γ,
      (l.filterMap f).length + (l.filter fun x => (f x).isNone).length = l.length := by
  intro l
  induction l with
  | nil => rfl
  | cons a t ih =>
      cases hf : f a with
      | none =>
          rw [List.filterMap_cons_none hf, List.filter_cons_of_pos (by simp [hf])]
          simp only [List.length_cons]
          omega
      | some b =>
          rw [List.filterMap_cons_some hf, List.filter_cons_of_neg (by simp [hf])]
          simp only [List.length_cons]
          omega

theorem range_filterMap_getElem {α : Type} (l : List α) :
    (List.range l.length).filterMap (fun i => l[i]?) = l := by
  induction l with
  | nil => rfl
  | cons a t ih =>
      rw [List.length_cons, List.range_succ_eq_map, List.filterMap_cons]
      simp only [List.getElem?_cons_zero]
      rw [List.filterMap_map]
      simp only [Function.comp_def, Nat.succ_eq_add_one, List.getElem?_cons_succ]
      rw [ih]

theorem completed_map_snd (details : List DetailRecord) (order : List Nat)
    (hperm : order.Perm (List.range details.length)) :
    ((order.filterMap fun i => (details[i]?).map fun d => (i, d)).map Prod.snd).Perm
      details := by
  rw [List.map_filterMap]
  have he : (fun (i : Nat) => ((details[i]?).map fun d => (i, d)).map Prod.snd) =
      fun (i : Nat) => details[i]? := by
    funext i
    cases details[i]? <;> rfl
  rw [he]
  have h2 := hperm.filterMap (fun i => details[i]?)
  rw [range_filterMap_getElem] at h2
  exact h2

theorem filterMap_filter_perm {γ β β2 : Type} (f : γ → Option β) (g : γ → β2)
    (h : β → β2) :
    ∀ l : List γ, (∀ x ∈ l, ∀ b, f x = some b → h b = g x) →
      ((l.filterMap f).map h ++
        ((l.filter fun x => (f x).isNone).map g)).Perm (l.map g) := by
  intro l
  induction l with
  | nil => intro _; rfl
  | cons a t ih =>
      intro hc
      have hct : ∀ x ∈ t, ∀ b, f x = some b → h b = g x := fun x hx =>
        hc x (List.mem_cons_of_mem _ hx)
      cases hf : f a with
      | none =>
          rw [List.filterMap_cons_none hf, List.filter_cons_of_pos (by simp [hf]),
            List.map_cons, List.map_cons]
          exact (List.perm_middle).trans ((ih hct).cons (g a))
      | some b =>
          rw [List.filterMap_cons_some hf, List.filter_cons_of_neg (by simp [hf]),
            List.map_cons, List.map_cons,
            hc a (List.mem_cons_self a t) b hf, List.cons_append]
          exact (ih hct).cons (g a)

theorem parse_single_name {text : String} {d : DetailRecord}
    {r : ClassificationResult} (h : parse_single_response text d = .ok r) :
    r.name = d.name.getD "" := by
  obtain ⟨data0, _, h2⟩ := parse_single_response_inv h
  obtain ⟨fs, sv, _, _, hr⟩ := single_from_data_inv h2
  rw [hr]

theorem analyze_outcome_name {response : Nat → Option String} {i : Nat}
    {d : DetailRecord} {r : ClassificationResult}
    (h : analyze_outcome response i d = some r) : r.name = d.name.getD "" := by
  unfold analyze_outcome at h
  cases hr : response i with
  | none => rw [hr] at h; simp at h
  | some t =>
      rw [hr] at h
      dsimp only at h
      cases hp : parse_single_response t d with
      | error e => rw [hp] at h; simp [Except.toOption] at h
      | ok r2 =>
          rw [hp] at h
          simp only [Except.toOption, Option.some.injEq] at h
          rw [← h]
          exact parse_single_name hp

theorem summarize_length (response : Nat → Option String) (order : List Nat)
    (details : List DetailRecord) (hperm : order.Perm (List.range details.length)) :
    (summarize_and_classify response order details).length = details.length := by
  unfold summarize_and_classify
  rw [List.length_append, List.length_map]
  have h1 := filterMap_length_partition (fun p => analyze_outcome response p.1 p.2)
      (order.filterMap fun i => (details[i]?).map fun d => (i, d))
  have h2 := (completed_map_snd details order hperm).length_eq
  rw [List.length_map] at h2
  rw [h1]
  exact h2

theorem mem_completed_snd {details : List DetailRecord} {order : List Nat}
    {p : Nat × DetailRecord}
    (hp : p ∈ order.filterMap fun i => (details[i]?).map fun d => (i, d)) :
    p.2 ∈ details := by
  obtain ⟨i, _, hi2⟩ := List.mem_filterMap.1 hp
  cases hd : details[i]? with
  | none => rw [hd] at hi2; simp at hi2
  | some d =>
      rw [hd] at hi2
      have hi3 : (i, d) = p := by simpa using hi2
      rw [← hi3]
      exact List.getElem?_mem hd

theorem summarize_names_perm (response : Nat → Option String) (order : List Nat)
    (details : List DetailRecord) (hperm : order.Perm (List.range details.length))
    (hn : ∀ d ∈ details, (d.name).isSome = true) :
    ((summarize_and_classify response order details).map fun r => r.name).Perm
      (details.map fun d => (d.name).getD "") := by
  have hc : ∀ x ∈ (order.filterMap fun i => (details[i]?).map fun d => (i, d)),
      ∀ b, analyze_outcome response x.1 x.2 = some b →
      b.name = (fallback_single x.2).name := by
    intro x hx b hb
    obtain ⟨v, hv⟩ := Option.isSome_iff_exists.1 (hn x.2 (mem_completed_snd hx))
    rw [analyze_outcome_name hb]
    show x.2.name.getD "" = x.2.name.getD "unknown"
    rw [hv]
    rfl
  have hstep := filterMap_filter_perm (fun p => analyze_outcome response p.1 p.2)
    (fun p => (fallback_single p.2).name) (fun r => r.name)
    (order.filterMap fun i => (details[i]?).map fun d => (i, d)) hc
  have hsnd2 : (((order.filterMap fun i => (details[i]?).map fun d => (i, d)).map
      fun p => (fallback_single p.2).name)).Perm
      (details.map fun d => (fallback_single d).name) := by
    have h0 := (completed_map_snd details order hperm).map fun d => (fallback_single d).name
    rw [List.map_map] at h0
    exact h0
  have hcongr : details.map (fun d => (fallback_single d).name) =
      details.map (fun d => (d.name).getD "") := by
    apply List.map_congr_left
    intro d hd
    obtain ⟨v, hv⟩ := Option.isSome_iff_exists.1 (hn d hd)
    show d.name.getD "unknown" = d.name.getD ""
    rw [hv]
    rfl
  have hfinal := hsnd2.trans (by rw [hcongr] : (details.map fun d =>
    (fallback_single d).name).Perm (details.map fun d => (d.name).getD ""))
  unfold summarize_and_classify
  rw [List.map_append, List.map_map]
  exact hstep.trans hfinal

def c1_details : List DetailRecord := [{ name := some "a" }, { name := some "b" }]

/-- Claim C1 is falsified by completion order: `summarize_and_classify`
appends results in the order the futures complete (`as_completed`) and never
re-sorts, so with completion order `[1, 0]` the first output entry is the
second input's, not the first's. -/
theorem C1_counterexample :
    ([1, 0].Perm (List.range c1_details.length)) ∧
    ((summarize_and_classify (fun _ => some "\x7b\x7d") [1, 0] c1_details).map
      fun r => r.name) = ["b", "a"] ∧
    (c1_details.map fun d => (d.name).getD "") = ["a", "b"] :=
  ⟨by decide, by rfl, by rfl⟩

/-- Claim C1 (amended): for every input list of N records and every
completion order of the concurrent tasks, the output has exactly N entries
and its names are a permutation of the input names (each input contributes
exactly one entry, via its parsed result or its fallback); the output order
is the completion order with fallbacks appended, not the input order. -/
theorem C1_theorem (response : Nat → Option String) (order : List Nat)
    (details : List DetailRecord) (hperm : order.Perm (List.range details.length))
    (hn : ∀ d ∈ details, (d.name).isSome = true) :
    (summarize_and_classify response order details).length = details.length ∧
    ((summarize_and_classify response order details).map fun r => r.name).Perm
      (details.map fun d => (d.name).getD "") :=
  ⟨summarize_length response order details hperm,
   summarize_names_perm response order details hperm hn⟩

/-- Witness for C1: a two-item batch processed in reversed completion
order. -/
theorem C1_witness :
    (summarize_and_classify (fun _ => some "\x7b\x7d") [1, 0] c1_details).length =
      c1_details.length ∧
    ((summarize_and_classify (fun _ => some "\x7b\x7d") [1, 0] c1_details).map
      fun r => r.name).Perm (c1_details.map fun d => (d.name).getD "") :=
  C1_theorem (fun _ => some "\x7b\x7d") [1, 0] c1_details (by decide) (by decide)

/-- Claim C4: an item whose model call failed on every attempt contributes
exactly the deterministic fallback entry — fallback flag true, placeholder
summary/description embedding the name, default category, single placeholder
solves — and the batch still returns one entry per input. -/
theorem C4_theorem (response : Nat → Option String) (order : List Nat)
    (details : List DetailRecord) (i : Nat) (d : DetailRecord)
    (hperm : order.Perm (List.range details.length))
    (hd : details[i]? = some d) (hfail : response i = none) :
    fallback_single d ∈ summarize_and_classify response order details ∧
    (summarize_and_classify response order details).length = details.length ∧
    (fallback_single d).fallback = true ∧
    (fallback_single d).summary =
      .str (((d.name).getD "unknown") ++ " - AI 分析暂不可用") ∧
    (fallback_single d).description = .str ("技能名称: " ++ ((d.name).getD "unknown")) ∧
    (fallback_single d).category = "other" ∧
    (fallback_single d).solves = .arr [.str "待分析"] := by
  refine ⟨?_, summarize_length response order details hperm, rfl, rfl, rfl, rfl, rfl⟩
  have hana : analyze_outcome response i d = none := by
    unfold analyze_outcome
    rw [hfail]
  have hlt : i < details.length := by
    by_contra hge
    push_neg at hge
    rw [List.getElem?_eq_none hge] at hd
    cases hd
  have hi : i ∈ order := hperm.mem_iff.2 (List.mem_range.2 hlt)
  have hmem : (i, d) ∈ (order.filterMap fun j => (details[j]?).map fun d2 => (j, d2)) :=
    List.mem_filterMap.2 ⟨i, hi, by rw [hd]; rfl⟩
  unfold summarize_and_classify
  refine List.mem_append.2 (Or.inr ?_)
  refine List.mem_map.2 ⟨(i, d), List.mem_filter.2 ⟨hmem, ?_⟩, rfl⟩
  show (analyze_outcome response i d).isNone = true
  rw [hana]
  rfl

def c4_detail : DetailRecord := { name := some "z", rules_count := some 2 }

/-- Witness for C4: a one-item batch whose only model call fails. -/
theorem C4_witness :
    fallback_single c4_detail ∈
      summarize_and_classify (fun _ => none) [0] [c4_detail] ∧
    (summarize_and_classify (fun _ => none) [0] [c4_detail]).length =
      [c4_detail].length ∧
    (fallback_single c4_detail).fallback = true ∧
    (fallback_single c4_detail).summary = .str ("z" ++ " - AI 分析暂不可用") ∧
    (fallback_single c4_detail).description = .str ("技能名称: " ++ "z") ∧
    (fallback_single c4_detail).category = "other" ∧
    (fallback_single c4_detail).solves = .arr [.str "待分析"] :=
  C4_theorem (fun _ => none) [0] [c4_detail] 0 c4_detail (by decide) (by rfl) (by rfl)

/-! ## Claim C3: the shape of the solves sequence -/

/-- The stringified-and-stripped value of one source entry, or `none` when
the dedup loop skips it (`None` or blank after stripping). -/
def cleanEntry : Json → Option String
  | .null => none
  | v =>
      let t := pyStrip (pyStr v)
      if t.data.isEmpty then none else some t

/-- The non-null, nonempty-after-stripping entries of the source list, in
order — the entries the batch dedup loop actually keeps from. -/
def cleaned_solves (xs : List Json) : List String :=
  xs.filterMap cleanEntry

/-- The raw solves source of one batch item, after the string coercion. -/
def batch_solves_source (raw : List (String × Json)) : List Json :=
  match (raw.lookup "solves").getD (.arr []) with
  | .str s => (normalize_solves_str s).map Json.str
  | .arr xs => xs
  | _ => []

theorem dedup_cons_nonnull {v : Json} {xs : List Json} {acc : List String}
    (hacc : acc.Nodup)
    (hstep : dedupStep acc v = if (pyStrip (pyStr v)).data.isEmpty then acc
      else if acc.contains (pyStrip (pyStr v)) then acc
      else acc ++ [pyStrip (pyStr v)])
    (hce : cleanEntry v = if (pyStrip (pyStr v)).data.isEmpty then none
      else some (pyStrip (pyStr v)))
    (ih : ∀ acc2 : List String, acc2.Nodup → ((xs.foldl dedupStep acc2).Nodup ∧
      ∃ t, xs.foldl dedupStep acc2 = acc2 ++ t ∧ t.Sublist (cleaned_solves xs))) :
    ((v :: xs).foldl dedupStep acc).Nodup ∧
      ∃ t, (v :: xs).foldl dedupStep acc = acc ++ t ∧
        t.Sublist (cleaned_solves (v :: xs)) := by
  have hclean : cleaned_solves (v :: xs) = if (pyStrip (pyStr v)).data.isEmpty
      then cleaned_solves xs else pyStrip (pyStr v) :: cleaned_solves xs := by
    unfold cleaned_solves
    rw [List.filterMap_cons, hce]
    by_cases hemp : (pyStrip (pyStr v)).data.isEmpty = true
    · rw [if_pos hemp, if_pos hemp]
    · rw [if_neg hemp, if_neg hemp]
  rw [List.foldl_cons, hstep, hclean]
  by_cases hemp : (pyStrip (pyStr v)).data.isEmpty = true
  · rw [if_pos hemp, if_pos hemp]
    exact ih acc hacc
  · rw [if_neg hemp, if_neg hemp]
    by_cases hmem : acc.contains (pyStrip (pyStr v)) = true
    · rw [if_pos hmem]
      obtain ⟨hnd, t, ht, hsub⟩ := ih acc hacc
      exact ⟨hnd, t, ht, hsub.cons _⟩
    · rw [if_neg hmem]
      have hnotmem : pyStrip (pyStr v) ∉ acc := by
        intro hin
        exact hmem (List.elem_eq_true_of_mem hin)
      have hacc2 : (acc ++ [pyStrip (pyStr v)]).Nodup := by
        rw [List.nodup_append]
        exact ⟨hacc, List.nodup_singleton _, by
          intro a ha hb
          simp only [List.mem_singleton] at hb
          exact hnotmem (hb ▸ ha)⟩
      obtain ⟨hnd, t, ht, hsub⟩ := ih (acc ++ [pyStrip (pyStr v)]) hacc2
      refine ⟨hnd, [pyStrip (pyStr v)] ++ t, ?_, ?_⟩
      · rw [ht, List.append_assoc]
      · exact hsub.cons₂ _

theorem dedup_solves_fold (xs : List Json) :
    ∀ acc : List String, acc.Nodup →
      ((xs.foldl dedupStep acc).Nodup ∧
        ∃ t, xs.foldl dedupStep acc = acc ++ t ∧
          t.Sublist (cleaned_solves xs)) := by
  induction xs with
  | nil => exact fun acc hacc => ⟨hacc, [], by simp, List.nil_sublist _⟩
  | cons v xs ih =>
      intro acc hacc
      cases v with
      | null =>
          rw [List.foldl_cons]
          exact ih acc hacc
      | bool b => exact dedup_cons_nonnull hacc rfl rfl ih
      | num n => exact dedup_cons_nonnull hacc rfl rfl ih
      | str s => exact dedup_cons_nonnull hacc rfl rfl ih
      | arr es => exact dedup_cons_nonnull hacc rfl rfl ih
      | obj fs => exact dedup_cons_nonnull hacc rfl rfl ih

theorem dedup_solves_spec (xs : List Json) :
    (dedup_solves xs).Nodup ∧ (dedup_solves xs).Sublist (cleaned_solves xs) := by
  obtain ⟨hnd, t, ht, hsub⟩ := dedup_solves_fold xs [] (List.nodup_nil)
  unfold dedup_solves
  rw [ht]
  exact ⟨ht ▸ hnd, by simpa using hsub⟩

theorem validate_batch_item_solves (raw : List (String × Json)) (n : String)
    (orig : DetailRecord) :
    (validate_batch_item raw n orig).solves =
      .arr ((if ((dedup_solves (batch_solves_source raw)).take 5).isEmpty
        then ["待分析"]
        else (dedup_solves (batch_solves_source raw)).take 5).map Json.str) := by
  unfold validate_batch_item batch_solves_source
  cases (raw.lookup "solves").getD (.arr []) <;> rfl

theorem single_solves_eq (fs : List (String × Json)) :
    single_solves fs =
      match (fs.lookup "solves").getD (.arr []) with
      | .arr xs => .ok (if (xs.take 5).isEmpty then Json.arr [Json.str "待分析"]
          else Json.arr (xs.take 5))
      | .str s => .ok (if (s.data.take 5).isEmpty then Json.arr [Json.str "待分析"]
          else Json.str ⟨s.data.take 5⟩)
      | _ => .error PyErr.typeError := by
  unfold single_solves
  cases (fs.lookup "solves").getD (.arr []) <;> rfl

theorem single_solves_shape {fs : List (String × Json)} {j : Json}
    (h : single_solves fs = .ok j) :
    (∃ l : List Json, j = .arr l ∧ 1 ≤ l.length ∧ l.length ≤ 5) ∨
    (∃ s : String, j = .str s ∧ 1 ≤ s.data.length ∧ s.data.length ≤ 5) := by
  rw [single_solves_eq] at h
  cases hv : (fs.lookup "solves").getD (.arr []) with
  | arr xs =>
      rw [hv] at h
      dsimp only at h
      by_cases he : (xs.take 5).isEmpty = true
      · rw [if_pos he] at h
        injection h with h
        exact Or.inl ⟨[Json.str "待分析"], h.symm, by simp, by simp⟩
      · rw [if_neg he] at h
        injection h with h
        refine Or.inl ⟨xs.take 5, h.symm, ?_, ?_⟩
        · have : xs.take 5 ≠ [] := fun hn => he (by rw [hn]; rfl)
          have := List.length_pos.2 this
          omega
        · have := List.length_take_le 5 xs
          omega
  | str s =>
      rw [hv] at h
      dsimp only at h
      by_cases he : (s.data.take 5).isEmpty = true
      · rw [if_pos he] at h
        injection h with h
        exact Or.inl ⟨[Json.str "待分析"], h.symm, by simp, by simp⟩
      · rw [if_neg he] at h
        injection h with h
        refine Or.inr ⟨⟨s.data.take 5⟩, h.symm, ?_, ?_⟩
        · have hne : s.data.take 5 ≠ [] := fun hn => he (by rw [hn]; rfl)
          have hpos := List.length_pos.2 hne
          have hdata : (⟨s.data.take 5⟩ : String).data = s.data.take 5 := rfl
          rw [hdata]
          omega
        · have hle := List.length_take_le 5 s.data
          have hdata : (⟨s.data.take 5⟩ : String).data = s.data.take 5 := rfl
          rw [hdata]
          omega
  | null => rw [hv] at h; cases h
  | bool b => rw [hv] at h; cases h
  | num n => rw [hv] at h; cases h
  | obj fs2 => rw [hv] at h; cases h

/-- Claim C3 is falsified on the single-response path: a model response with
duplicate solves entries keeps the duplicates (`data.get("solves", [])[:5]`
performs no dedup). -/
theorem C3_counterexample :
    (parse_single_response "\x7b\"solves\": [\"a\", \"a\"]\x7d"
      sample_single_detail).map (fun r => r.solves) =
      .ok (Json.arr [Json.str "a", Json.str "a"]) ∧
    ¬ ([Json.str "a", Json.str "a"].Nodup) :=
  ⟨by rfl, by simp⟩

/-- Claim C3 (amended): in the batch path, solves is a 1-to-5 entry,
duplicate-free, order-preserving selection from the source values (or the
single placeholder); in the single-response path the length bounds and
placeholder hold, but the first five entries are kept without
de-duplication. -/
theorem C3_theorem :
    (∀ (raw : List (String × Json)) (n : String) (orig : DetailRecord),
      ∃ ss : List String,
        (validate_batch_item raw n orig).solves = .arr (ss.map Json.str) ∧
        ss ≠ [] ∧ ss.length ≤ 5 ∧ ss.Nodup ∧
        (ss = ["待分析"] ∨
          ss.Sublist (cleaned_solves (batch_solves_source raw)))) ∧
    (∀ (text : String) (d : DetailRecord) (r : ClassificationResult),
      parse_single_response text d = .ok r →
      (∃ l : List Json, r.solves = .arr l ∧ 1 ≤ l.length ∧ l.length ≤ 5) ∨
      (∃ s : String, r.solves = .str s ∧ 1 ≤ s.data.length ∧
        s.data.length ≤ 5)) ∧
    (∀ (fs : List (String × Json)) (xs : List Json),
      fs.lookup "solves" = some (.arr xs) →
      single_solves fs =
        .ok (if (xs.take 5).isEmpty then Json.arr [Json.str "待分析"]
          else Json.arr (xs.take 5))) := by
  refine ⟨?_, ?_, ?_⟩
  · intro raw n orig
    rw [validate_batch_item_solves raw n orig]
    obtain ⟨hnd, hsub⟩ := dedup_solves_spec (batch_solves_source raw)
    by_cases he : ((dedup_solves (batch_solves_source raw)).take 5).isEmpty = true
    · exact ⟨["待分析"], by rw [if_pos he], by simp, by simp, by simp, Or.inl rfl⟩
    · refine ⟨(dedup_solves (batch_solves_source raw)).take 5, by rw [if_neg he],
        ?_, ?_, ?_, Or.inr ?_⟩
      · intro hnil
        rw [hnil] at he
        exact he rfl
      · exact List.length_take_le 5 _
      · exact hnd.sublist (List.take_sublist 5 _)
      · exact (List.take_sublist 5 _).trans hsub
  · intro text d r h
    obtain ⟨data0, _, h2⟩ := parse_single_response_inv h
    obtain ⟨fs, sv, _, hsv, hr⟩ := single_from_data_inv h2
    rw [hr]
    exact single_solves_shape hsv
  · intro fs xs hyp
    unfold single_solves
    rw [hyp]
    rfl

/-- Witness for C3: the single-path take-5 part applied to a concrete
one-entry solves list, and the single-path bound part at the duplicate
input. -/
theorem C3_witness :
    single_solves [("solves", Json.arr [Json.str "a"])] =
      .ok (if ([Json.str "a"].take 5).isEmpty then Json.arr [Json.str "待分析"]
        else Json.arr ([Json.str "a"].take 5)) :=
  C3_theorem.2.2 [("solves", Json.arr [Json.str "a"])] [Json.str "a"] (by rfl)

/-! ## Claim C9: the candidate order of the JSON decode step -/

/-- The bracket-delimited span of the cleaned text, when present. -/
def bracketSpan (cleaned : String) : Option String :=
  match pyFind cleaned.data ['['], pyRfind cleaned.data [']'] with
  | some bs, some be => if bs < be then some (pySlice cleaned bs (be + 1)) else none
  | _, _ => none

/-- The brace-delimited span of the cleaned text, when present. -/
def braceSpan (cleaned : String) : Option String :=
  match pyFind cleaned.data ['\x7b'], pyRfind cleaned.data ['\x7d'] with
  | some ps, some pe => if ps < pe then some (pySlice cleaned ps (pe + 1)) else none
  | _, _ => none

theorem batch_candidates_eq (cleaned : String) :
    batch_candidates cleaned =
      (bracketSpan cleaned).toList ++ [cleaned] ++ (braceSpan cleaned).toList := by
  unfold batch_candidates bracketSpan braceSpan
  cases pyFind cleaned.data ['['] <;>
    cases pyRfind cleaned.data [']'] <;>
      cases pyFind cleaned.data ['\x7b'] <;>
        cases pyRfind cleaned.data ['\x7d'] <;>
          (dsimp only; first | rfl | (split_ifs <;> rfl))

/-- Claim C9 is falsified on candidate order: for a cleaned text that is a
JSON string literal containing a bracket span, the code decodes the bracket
span (tried first), while the spec's order (full text first) would decode
the full text. -/
theorem C9_counterexample :
    decode_batch "\"x[1]y\"" = some (Json.arr [Json.num 1]) ∧
    spec_decode_batch "\"x[1]y\"" = some (Json.str "x[1]y") ∧
    Json.arr [Json.num 1] ≠ Json.str "x[1]y" :=
  ⟨by rfl, by rfl, fun h => nomatch h⟩

/-- Claim C9 (amended): the batch parser tries the candidate substrings in
the order bracket-delimited span (if present), full cleaned text,
brace-delimited span (if present), taking the first that `json.loads`
accepts; the single parser tries only the full cleaned text and then the
brace-delimited span; when the single parser's decoded value is a list, its
first element is used as the result object. -/
theorem C9_theorem :
    (∀ (t b : String) (v : Json), bracketSpan (clean_batch t) = some b →
      loads b = some v → decode_batch t = some v) ∧
    (∀ (t : String) (v : Json),
      (∀ b, bracketSpan (clean_batch t) = some b → loads b = none) →
      loads (clean_batch t) = some v → decode_batch t = some v) ∧
    (∀ (t c : String) (v : Json),
      (∀ b, bracketSpan (clean_batch t) = some b → loads b = none) →
      loads (clean_batch t) = none → braceSpan (clean_batch t) = some c →
      loads c = some v → decode_batch t = some v) ∧
    (∀ (c : String) (v : Json), loads c = some v → decode_single c = .ok v) ∧
    (∀ (c s2 : String) (v : Json), loads c = none → braceSpan c = some s2 →
      loads s2 = some v → decode_single c = .ok v) ∧
    decode_single "x[1]y" = .error .jsonDecodeError ∧
    (∀ (text : String) (d : DetailRecord) (x : Json) (xs : List Json),
      decode_single (clean_single text) = .ok (.arr (x :: xs)) →
      parse_single_response text d = single_from_data x d) := by
  refine ⟨?_, ?_, ?_, ?_, ?_, by rfl, ?_⟩
  · intro t b v hb hv
    show first_loads (batch_candidates (clean_batch t)) = some v
    rw [batch_candidates_eq, hb]
    show first_loads (b :: _) = some v
    unfold first_loads
    rw [hv]
  · intro t v hb hv
    show first_loads (batch_candidates (clean_batch t)) = some v
    rw [batch_candidates_eq]
    cases hbs : bracketSpan (clean_batch t) with
    | none =>
        show first_loads (clean_batch t :: _) = some v
        unfold first_loads
        rw [hv]
    | some b =>
        show first_loads (b :: clean_batch t :: _) = some v
        unfold first_loads
        rw [hb b hbs]
        unfold first_loads
        rw [hv]
  · intro t c v hb hcl hc hv
    show first_loads (batch_candidates (clean_batch t)) = some v
    rw [batch_candidates_eq, hc]
    cases hbs : bracketSpan (clean_batch t) with
    | none =>
        show first_loads (clean_batch t :: [c]) = some v
        unfold first_loads
        rw [hcl]
        unfold first_loads
        rw [hv]
    | some b =>
        show first_loads (b :: clean_batch t :: [c]) = some v
        unfold first_loads
        rw [hb b hbs]
        unfold first_loads
        rw [hcl]
        unfold first_loads
        rw [hv]
  · intro c v hv
    unfold decode_single
    rw [hv]
  · intro c s2 v hcl hspan hv
    unfold decode_single
    unfold braceSpan at hspan
    cases hf : pyFind c.data ['\x7b'] with
    | none =>
        rw [hf] at hspan
        dsimp only at hspan
        simp at hspan
    | some st =>
        cases hr : pyRfind c.data ['\x7d'] with
        | none =>
            rw [hf, hr] at hspan
            dsimp only at hspan
            simp at hspan
        | some en =>
            rw [hf, hr] at hspan
            dsimp only at hspan
            by_cases hlt : st < en
            · rw [if_pos hlt] at hspan
              injection hspan with hspan
              dsimp only
              rw [if_pos (show st < en + 1 by omega), hspan, hv, hcl]
            · rw [if_neg hlt] at hspan
              simp at hspan
  · intro text d x xs hdec
    unfold parse_single_response
    rw [hdec]
    rfl

/-- Witness for C9: the bracket-priority part applied to a concrete text. -/
theorem C9_witness :
    decode_batch "a[2]b" = some (Json.arr [Json.num 2]) :=
  C9_theorem.1 "a[2]b" "[2]" (Json.arr [Json.num 2]) (by rfl) (by rfl)

/-! ## Claims C6 and C7: the leaderboard parser

First the capture-class machinery: every character captured by an atom
satisfies that atom's character class; the installs capture (group 4)
therefore consists of digit/dot/`K` characters, on which `_parse_installs`
cannot raise. -/

/-- The grammar cascade as a match list: the matches of the first pattern
that has any (the pattern `parse_leaderboard` breaks on). -/
def first_nonempty_matches (content : List Char) :
    List (List ReItem) → List (List (Option Nat × String))
  | [] => []
  | p :: ps =>
      let ms := finditer p content
      if ms.isEmpty then first_nonempty_matches content ps else ms

/-- Name captured by one match. -/
def mName (caps : List (Option Nat × String)) : String := groupStr caps 2

/-- Rank captured by one match (`int(match.group(1))`). -/
def mRank (caps : List (Option Nat × String)) : Nat :=
  digitsToNat (groupStr caps 1).data

theorem reSplits_mem {q : Quant} {cls : Char → Bool} {s m r : List Char}
    (h : (m, r) ∈ reSplits q cls s) : ∀ c ∈ m, cls c = true := by
  intro c hc
  unfold reSplits at h
  cases q with
  | one =>
      cases s with
      | nil => dsimp only at h; cases h
      | cons a t =>
          dsimp only at h
          by_cases ha : cls a = true
          · rw [if_pos ha] at h
            simp only [List.mem_singleton, Prod.mk.injEq] at h
            rw [h.1] at hc
            simp only [List.mem_singleton] at hc
            rw [hc]
            exact ha
          · rw [if_neg ha] at h
            cases h
  | star =>
      dsimp only at h
      obtain ⟨k, _, hk⟩ := List.mem_map.1 h
      have hk2 := (Prod.mk.injEq _ _ _ _ ▸ hk)
      have hm : m = (s.takeWhile cls).take k := hk2.1.symm
      rw [hm] at hc
      exact List.mem_takeWhile_imp ((List.take_sublist _ _).mem hc)
  | plus =>
      dsimp only at h
      have h2 := (List.dropLast_sublist _).mem h
      obtain ⟨k, _, hk⟩ := List.mem_map.1 h2
      have hk2 := (Prod.mk.injEq _ _ _ _ ▸ hk)
      have hm : m = (s.takeWhile cls).take k := hk2.1.symm
      rw [hm] at hc
      exact List.mem_takeWhile_imp ((List.take_sublist _ _).mem hc)
  | opt =>
      cases s with
      | nil =>
          dsimp only at h
          simp only [List.mem_singleton, Prod.mk.injEq] at h
          rw [h.1] at hc
          cases hc
      | cons a t =>
          dsimp only at h
          by_cases ha : cls a = true
          · rw [if_pos ha] at h
            simp only [List.mem_cons, List.mem_singleton, Prod.mk.injEq] at h
            rcases h with ⟨hm, hr⟩ | ⟨hm, hr⟩ | h3
            · rw [hm] at hc
              simp only [List.mem_singleton] at hc
              rw [hc]
              exact ha
            · rw [hm] at hc
              cases hc
            · cases h3
          · rw [if_neg ha] at h
            simp only [List.mem_singleton, Prod.mk.injEq] at h
            rw [h.1] at hc
            cases hc

theorem matchSeq_caps :
    ∀ (items : List ReItem) (s : List Char) caps rest,
      matchSeq items s = some (caps, rest) →
      List.Forall₂ (fun (it : ReItem) (c : Option Nat × String) =>
        c.1 = it.group ∧ ∀ ch ∈ c.2.data, it.cls ch = true) items caps := by
  intro items
  induction items with
  | nil =>
      intro s caps rest h
      unfold matchSeq at h
      injection h with h
      injection h with h1 h2
      rw [← h1]
      exact List.Forall₂.nil
  | cons it rest2 ih =>
      intro s caps rest h
      unfold matchSeq at h
      obtain ⟨⟨m, r⟩, hm, hf⟩ := List.exists_of_findSome?_eq_some h
      cases hms : matchSeq rest2 r with
      | none => rw [hms] at hf; cases hf
      | some pr =>
          rw [hms] at hf
          obtain ⟨caps2, rest3⟩ := pr
          dsimp only [Option.map] at hf
          injection hf with hf
          injection hf with hf1 hf2
          rw [← hf1]
          exact List.Forall₂.cons ⟨rfl, fun ch hch => reSplits_mem hm ch hch⟩
            (ih r caps2 rest3 hms)

theorem forall₂_mem_right {α β : Type} {R : α → β → Prop} :
    ∀ {l₁ : List α} {l₂ : List β}, List.Forall₂ R l₁ l₂ → ∀ b ∈ l₂,
      ∃ a ∈ l₁, R a b := by
  intro l₁ l₂ h
  induction h with
  | nil => intro b hb; cases hb
  | cons hr _ ih =>
      intro b hb
      rcases List.mem_cons.1 hb with hb | hb
      · exact ⟨_, List.mem_cons_self _ _, hb ▸ hr⟩
      · obtain ⟨a, ha, har⟩ := ih b hb
        exact ⟨a, List.mem_cons_of_mem _ ha, har⟩

theorem gapItems_group : ∀ it ∈ gapItems, it.group = none := by
  intro it h
  fin_cases h <;> rfl

theorem ownerItems_group : ∀ it ∈ ownerItems, it.group = some 3 := by
  intro it h
  fin_cases h <;> rfl

theorem installsItems_class : ∀ it ∈ installsItems, ∀ ch, it.cls ch = true →
    instC ch = true ∨ ch = 'K' := by
  intro it h
  fin_cases h
  · intro ch hch
    exact Or.inl hch
  · intro ch hch
    right
    simpa [reItem] using hch

theorem group4_mem_installs :
    ∀ p ∈ PATTERNS, ∀ it ∈ p, it.group = some 4 → it ∈ installsItems := by
  have hpat : ∀ p ∈ PATTERNS, p = pattern1 ∨ p = pattern2 ∨ p = pattern3 ∨
      p = pattern4 := by
    intro p hp
    simpa [PATTERNS] using hp
  intro p hp
  rcases hpat p hp with rfl | rfl | rfl | rfl
  · intro it hit hg
    rcases List.mem_append.1 hit with h1 | h1
    · rcases List.mem_append.1 h1 with h2 | h2
      · rcases List.mem_append.1 h2 with h3 | h3
        · rcases List.mem_append.1 h3 with h4 | h4
          · rcases List.mem_append.1 h4 with h5 | h5
            · rcases List.mem_append.1 h5 with h6 | h6
              · rw [List.mem_singleton] at h6
                subst h6
                simp [reItem] at hg
              · rw [gapItems_group it h6] at hg
                cases hg
            · rw [List.mem_singleton] at h5
              subst h5
              simp [reItem] at hg
          · rw [gapItems_group it h4] at hg
            cases hg
        · rw [ownerItems_group it h3] at hg
          simp at hg
      · rw [gapItems_group it h2] at hg
        cases hg
    · exact h1
  · intro it hit hg
    rcases List.mem_append.1 hit with h1 | h1
    · rcases List.mem_append.1 h1 with h2 | h2
      · rcases List.mem_append.1 h2 with h3 | h3
        · rcases List.mem_append.1 h3 with h4 | h4
          · rcases List.mem_append.1 h4 with h5 | h5
            · rcases List.mem_append.1 h5 with h6 | h6
              · rw [List.mem_singleton] at h6
                subst h6
                simp [reItem] at hg
              · rw [gapItems_group it h6] at hg
                cases hg
            · rw [List.mem_singleton] at h5
              subst h5
              simp [reItem] at hg
          · rw [gapItems_group it h4] at hg
            cases hg
        · rw [ownerItems_group it h3] at hg
          simp at hg
      · rw [gapItems_group it h2] at hg
        cases hg
    · exact h1
  · intro it hit hg
    rcases List.mem_append.1 hit with h1 | h1
    · rcases List.mem_append.1 h1 with h2 | h2
      · rcases List.mem_append.1 h2 with h3 | h3
        · rcases List.mem_append.1 h3 with h4 | h4
          · rcases List.mem_append.1 h4 with h5 | h5
            · rcases List.mem_append.1 h5 with h6 | h6
              · rw [List.mem_singleton] at h6
                subst h6
                simp [reItem] at hg
              · rw [gapItems_group it h6] at hg
                cases hg
            · fin_cases h5 <;> simp [reItem] at hg
          · rw [gapItems_group it h4] at hg
            cases hg
        · rw [ownerItems_group it h3] at hg
          simp at hg
      · rw [gapItems_group it h2] at hg
        cases hg
    · exact h1
  · intro it hit hg
    rcases List.mem_append.1 hit with h1 | h1
    · rcases List.mem_append.1 h1 with h2 | h2
      · rcases List.mem_append.1 h2 with h3 | h3
        · fin_cases h3 <;> simp [reItem] at hg
        · rw [ownerItems_group it h3] at hg
          simp at hg
      · rw [List.mem_singleton] at h2
        subst h2
        simp [reItem] at hg
    · exact h1

theorem string_join_data :
    ∀ l : List String, (String.join l).data = (l.map String.data).flatten := by
  have haux : ∀ (l : List String) (acc : String),
      (l.foldl (fun r s => r ++ s) acc).data = acc.data ++ (l.map String.data).flatten := by
    intro l
    induction l with
    | nil => intro acc; simp
    | cons s t ih =>
        intro acc
        rw [List.foldl_cons, ih]
        simp [List.append_assoc]
  intro l
  have := haux l ""
  simpa [String.join] using this

theorem match_group4_class {p : List ReItem} (hp : p ∈ PATTERNS)
    {s : List Char} {caps : List (Option Nat × String)} {rest : List Char}
    (h : matchSeq p s = some (caps, rest)) :
    ∀ ch ∈ (groupStr caps 4).data, instC ch = true ∨ ch = 'K' := by
  intro ch hch
  unfold groupStr at hch
  rw [string_join_data] at hch
  obtain ⟨l2, hl2, hch2⟩ := List.mem_flatten.1 hch
  obtain ⟨piece, hpiece, hpe⟩ := List.mem_map.1 hl2
  obtain ⟨c, hc, hcval⟩ := List.mem_filterMap.1 hpiece
  have hc4 : c.1 = some 4 ∧ c.2 = piece := by
    by_cases hq : c.1 = some 4
    · rw [if_pos hq] at hcval
      exact ⟨hq, by injection hcval⟩
    · rw [if_neg hq] at hcval
      cases hcval
  obtain ⟨it, hit, hrel⟩ := forall₂_mem_right (matchSeq_caps p s caps rest h) c hc
  have hg : it.group = some 4 := hrel.1 ▸ hc4.1
  have hcls := hrel.2 ch (by rw [hc4.2, hpe]; exact hch2)
  exact installsItems_class it (group4_mem_installs p hp it hit hg) ch hcls

/- Note: a matched installs capture is digit/dot/`K` (`match_group4_class`),
but that does NOT make `_parse_installs` total on it: a capture of 309 or
more digits overflows `float()` to the infinity and `int(inf * 1000)`
raises an uncaught `OverflowError`, so the loop below can only be shown to
return normally when each capture's float value is finite. -/

theorem finditerAux_succ (items : List ReItem) (fuel : Nat) (s : List Char) :
    finditerAux items (fuel + 1) s =
      match matchSeq items s with
      | some (caps, rest) =>
          if rest.length < s.length then caps :: finditerAux items fuel rest
          else
            match s with
            | [] => [caps]
            | _ :: t => caps :: finditerAux items fuel t
      | none =>
          match s with
          | [] => []
          | _ :: t => finditerAux items fuel t := rfl

theorem finditer_mem {items : List ReItem} :
    ∀ (fuel : Nat) (s : List Char) (caps : List (Option Nat × String)),
      caps ∈ finditerAux items fuel s →
      ∃ s2 rest, matchSeq items s2 = some (caps, rest) := by
  intro fuel
  induction fuel with
  | zero => intro s caps h; cases h
  | succ fuel ih =>
      intro s caps h
      rw [finditerAux_succ] at h
      cases hm : matchSeq items s with
      | some pr =>
          obtain ⟨caps0, rest0⟩ := pr
          rw [hm] at h
          dsimp only at h
          by_cases hlen : rest0.length < s.length
          · rw [if_pos hlen] at h
            rcases List.mem_cons.1 h with h1 | h1
            · exact ⟨s, rest0, h1 ▸ hm⟩
            · exact ih rest0 caps h1
          · rw [if_neg hlen] at h
            cases s with
            | nil =>
                rw [List.mem_singleton] at h
                exact ⟨[], rest0, h ▸ hm⟩
            | cons a t =>
                rcases List.mem_cons.1 h with h1 | h1
                · exact ⟨a :: t, rest0, h1 ▸ hm⟩
                · exact ih t caps h1
      | none =>
          rw [hm] at h
          dsimp only at h
          cases s with
          | nil => cases h
          | cons a t => exact ih t caps h

/-- The skill record built from one regex match. -/
def mkSkill (base_url : String) (caps : List (Option Nat × String))
    (installs : Int) : Skill :=
  { rank := mRank caps, name := mName caps, owner := groupStr caps 3
    installs := installs
    url := base_url ++ "/" ++ groupStr caps 3 ++ "/" ++ mName caps }

/-- The dict update of one loop iteration, given the parsed installs. -/
def upd_skill (base_url : String) (d : List (String × Skill))
    (caps : List (Option Nat × String)) (installs : Int) : List (String × Skill) :=
  match d.lookup (mName caps) with
  | none => setKey d (mName caps) (mkSkill base_url caps installs)
  | some old =>
      if old.rank > mRank caps then setKey d (mName caps) (mkSkill base_url caps installs)
      else d

theorem dict_step_eq (base : String) (d : List (String × Skill))
    (caps : List (Option Nat × String)) (n : Int)
    (hn : parse_installs (groupStr caps 4) = .ok n) :
    dict_step base d caps = .ok (upd_skill base d caps n) := by
  unfold dict_step upd_skill mkSkill mName mRank
  rw [hn]
  dsimp only [Except.mapError, Bind.bind, Except.bind]
  cases d.lookup (groupStr caps 2) with
  | none => rfl
  | some old =>
      dsimp only
      by_cases hr : old.rank > digitsToNat (groupStr caps 1).data
      · rw [if_pos hr, if_pos hr]
      · rw [if_neg hr, if_neg hr]

theorem foldlM_dict_ok (base : String) :
    ∀ (ms : List (List (Option Nat × String))) (d : List (String × Skill)),
      (∀ caps ∈ ms, ∃ n, parse_installs (groupStr caps 4) = .ok n) →
      ∃ d2, ms.foldlM (dict_step base) d = .ok d2 := by
  intro ms
  induction ms with
  | nil => exact fun d _ => ⟨d, rfl⟩
  | cons m ms ih =>
      intro d h
      obtain ⟨n, hn⟩ := h m (List.mem_cons_self m ms)
      rw [List.foldlM_cons, dict_step_eq base d m n hn]
      exact ih (upd_skill base d m n) fun caps hc =>
        h caps (List.mem_cons_of_mem _ hc)

/-! ### Association-list lemmas for the skills dict -/

theorem setKey_keys_mem {β : Type} (v : β) :
    ∀ (d : List (String × β)) (k : String), k ∈ d.map Prod.fst →
      (setKey d k v).map Prod.fst = d.map Prod.fst := by
  intro d
  induction d with
  | nil => intro k h; cases h
  | cons a rest ih =>
      intro k h
      unfold setKey
      by_cases hk : a.1 = k
      · rw [if_pos hk]
        simp [hk]
      · rw [if_neg hk]
        simp only [List.map_cons]
        rw [ih k ?_]
        rcases List.mem_cons.1 h with h1 | h1
        · exact absurd h1.symm hk
        · exact h1

theorem setKey_keys_new {β : Type} (v : β) :
    ∀ (d : List (String × β)) (k : String), k ∉ d.map Prod.fst →
      (setKey d k v).map Prod.fst = d.map Prod.fst ++ [k] := by
  intro d
  induction d with
  | nil => intro k _; rfl
  | cons a rest ih =>
      intro k h
      unfold setKey
      by_cases hk : a.1 = k
      · exact absurd (by simp [hk]) h
      · rw [if_neg hk]
        simp only [List.map_cons, List.cons_append]
        rw [ih k fun hm => h (by simp [hm])]

theorem setKey_mem {β : Type} {v : β} :
    ∀ {d : List (String × β)} {k : String} {kv : String × β},
      (d.map Prod.fst).Nodup → kv ∈ setKey d k v →
      kv = (k, v) ∨ (kv ∈ d ∧ kv.1 ≠ k) := by
  intro d
  induction d with
  | nil =>
      intro k kv _ h
      unfold setKey at h
      rw [List.mem_singleton] at h
      exact Or.inl h
  | cons a rest ih =>
      intro k kv hnd h
      rw [List.map_cons, List.nodup_cons] at hnd
      unfold setKey at h
      by_cases hk : a.1 = k
      · rw [if_pos hk] at h
        rcases List.mem_cons.1 h with h1 | h1
        · exact Or.inl h1
        · refine Or.inr ⟨List.mem_cons_of_mem _ h1, fun he => ?_⟩
          apply hnd.1
          rw [hk, ← he]
          exact List.mem_map.2 ⟨kv, h1, rfl⟩
      · rw [if_neg hk] at h
        rcases List.mem_cons.1 h with h1 | h1
        · refine Or.inr ⟨h1 ▸ List.mem_cons_self a rest, ?_⟩
          rw [h1]
          exact hk
        · rcases ih hnd.2 h1 with h2 | h2
          · exact Or.inl h2
          · exact Or.inr ⟨List.mem_cons_of_mem _ h2.1, h2.2⟩

theorem lookup_none_iff {β : Type} :
    ∀ (d : List (String × β)) (k : String),
      d.lookup k = none ↔ k ∉ d.map Prod.fst := by
  intro d
  induction d with
  | nil => intro k; simp [List.lookup]
  | cons a rest ih =>
      intro k
      rw [List.lookup]
      by_cases hk : k == a.1
      · rw [hk]
        simp only [List.map_cons, List.mem_cons]
        constructor
        · intro h; cases h
        · intro h
          exact absurd (Or.inl (by simpa using hk)) h
      · rw [Bool.not_eq_true] at hk
        rw [hk]
        simp only [List.map_cons, List.mem_cons]
        rw [ih k]
        constructor
        · intro h hm
          rcases hm with hm | hm
          · rw [hm] at hk
            simp at hk
          · exact h hm
        · intro h hm
          exact h (Or.inr hm)

theorem lookup_mem {β : Type} :
    ∀ {d : List (String × β)} {k : String} {v : β},
      d.lookup k = some v → (k, v) ∈ d := by
  intro d
  induction d with
  | nil => intro k v h; cases h
  | cons a rest ih =>
      intro k v h
      rw [List.lookup] at h
      by_cases hk : k == a.1
      · rw [hk] at h
        injection h with h
        have hk2 : k = a.1 := by simpa using hk
        have : (k, v) = a := by
          rw [hk2, ← h]
        exact this ▸ List.mem_cons_self a rest
      · rw [Bool.not_eq_true] at hk
        rw [hk] at h
        exact List.mem_cons_of_mem _ (ih h)

theorem keys_nodup_inj {β : Type} :
    ∀ {d : List (String × β)}, (d.map Prod.fst).Nodup →
      ∀ {kv1 kv2 : String × β}, kv1 ∈ d → kv2 ∈ d → kv1.1 = kv2.1 → kv1 = kv2 := by
  intro d
  induction d with
  | nil => intro _ kv1 kv2 h1; cases h1
  | cons a rest ih =>
      intro hnd kv1 kv2 h1 h2 he
      rw [List.map_cons, List.nodup_cons] at hnd
      rcases List.mem_cons.1 h1 with h1 | h1 <;> rcases List.mem_cons.1 h2 with h2 | h2
      · rw [h1, h2]
      · exfalso
        apply hnd.1
        rw [← h1, he]
        exact List.mem_map.2 ⟨kv2, h2, rfl⟩
      · exfalso
        apply hnd.1
        rw [← h2, ← he]
        exact List.mem_map.2 ⟨kv1, h1, rfl⟩
      · exact ih hnd.2 h1 h2 he

/-! ### The dict invariant of the per-match loop -/

/-- After processing the matches `ms`, the skills dict `d` has duplicate-free
keys, every entry's name equals its key, the key set is exactly the set of
matched names, and every entry's rank is the minimum rank over the matches of
its name (attained by one of them). -/
def DictInv (ms : List (List (Option Nat × String)))
    (d : List (String × Skill)) : Prop :=
  (d.map Prod.fst).Nodup ∧
  (∀ kv ∈ d, kv.2.name = kv.1) ∧
  (∀ k, k ∈ d.map Prod.fst ↔ k ∈ ms.map mName) ∧
  (∀ kv ∈ d, (∃ m ∈ ms, mName m = kv.1 ∧ mRank m = kv.2.rank) ∧
    ∀ m ∈ ms, mName m = kv.1 → kv.2.rank ≤ mRank m)

theorem DictInv_nil : DictInv [] [] :=
  ⟨List.nodup_nil, fun kv h => absurd h (List.not_mem_nil kv),
   fun k => by simp, fun kv h => absurd h (List.not_mem_nil kv)⟩

theorem DictInv_step (base : String) {ms : List (List (Option Nat × String))}
    {d : List (String × Skill)} (caps : List (Option Nat × String)) (n : Int)
    (hinv : DictInv ms d) : DictInv (ms ++ [caps]) (upd_skill base d caps n) := by
  obtain ⟨hnd, hname, hkeys, hmin⟩ := hinv
  unfold upd_skill
  cases hl : d.lookup (mName caps) with
  | none =>
      have hk : mName caps ∉ d.map Prod.fst := (lookup_none_iff d _).1 hl
      dsimp only
      refine ⟨?_, ?_, ?_, ?_⟩
      · rw [setKey_keys_new _ d _ hk]
        exact ((List.perm_append_singleton _ _).nodup_iff).2 (List.nodup_cons.2 ⟨hk, hnd⟩)
      · intro kv hkv
        rcases setKey_mem hnd hkv with h1 | h1
        · rw [h1]
          rfl
        · exact hname kv h1.1
      · intro k
        rw [setKey_keys_new _ d _ hk, List.map_append, List.mem_append,
          List.mem_append, hkeys k]
        exact Iff.rfl
      · intro kv hkv
        rcases setKey_mem hnd hkv with h1 | h1
        · rw [h1]
          constructor
          · exact ⟨caps, List.mem_append_right _ (List.mem_singleton.2 rfl), rfl, rfl⟩
          · intro m hm hnm
            rcases List.mem_append.1 hm with hm | hm
            · exact absurd ((hkeys _).2 (List.mem_map.2 ⟨m, hm, hnm⟩)) hk
            · rw [List.mem_singleton] at hm
              subst hm
              exact le_refl _
        · obtain ⟨hin, hne⟩ := h1
          constructor
          · obtain ⟨m, hm, e1, e2⟩ := (hmin kv hin).1
            exact ⟨m, List.mem_append_left _ hm, e1, e2⟩
          · intro m hm hnm
            rcases List.mem_append.1 hm with hm | hm
            · exact (hmin kv hin).2 m hm hnm
            · rw [List.mem_singleton] at hm
              subst hm
              exact absurd hnm.symm hne
  | some old =>
      have hmem_old : (mName caps, old) ∈ d := lookup_mem hl
      have hkmem : mName caps ∈ d.map Prod.fst :=
        List.mem_map.2 ⟨(mName caps, old), hmem_old, rfl⟩
      dsimp only
      by_cases hr : old.rank > mRank caps
      · rw [if_pos hr]
        refine ⟨?_, ?_, ?_, ?_⟩
        · rw [setKey_keys_mem _ d _ hkmem]
          exact hnd
        · intro kv hkv
          rcases setKey_mem hnd hkv with h1 | h1
          · rw [h1]
            rfl
          · exact hname kv h1.1
        · intro k
          rw [setKey_keys_mem _ d _ hkmem, hkeys k, List.map_append, List.mem_append]
          constructor
          · exact Or.inl
          · rintro (h | h)
            · exact h
            · simp only [List.map_cons, List.map_nil, List.mem_singleton] at h
              subst h
              exact (hkeys _).1 hkmem
        · intro kv hkv
          rcases setKey_mem hnd hkv with h1 | h1
          · rw [h1]
            constructor
            · exact ⟨caps, List.mem_append_right _ (List.mem_singleton.2 rfl), rfl, rfl⟩
            · intro m hm hnm
              rcases List.mem_append.1 hm with hm | hm
              · have h2 := (hmin (mName caps, old) hmem_old).2 m hm hnm
                exact le_trans (le_of_lt hr) h2
              · rw [List.mem_singleton] at hm
                subst hm
                exact le_refl _
          · obtain ⟨hin, hne⟩ := h1
            constructor
            · obtain ⟨m, hm, e1, e2⟩ := (hmin kv hin).1
              exact ⟨m, List.mem_append_left _ hm, e1, e2⟩
            · intro m hm hnm
              rcases List.mem_append.1 hm with hm | hm
              · exact (hmin kv hin).2 m hm hnm
              · rw [List.mem_singleton] at hm
                subst hm
                exact absurd hnm.symm hne
      · rw [if_neg hr]
        have hle : old.rank ≤ mRank caps := Nat.not_lt.1 hr
        refine ⟨hnd, hname, ?_, ?_⟩
        · intro k
          rw [hkeys k, List.map_append, List.mem_append]
          constructor
          · exact Or.inl
          · rintro (h | h)
            · exact h
            · simp only [List.map_cons, List.map_nil, List.mem_singleton] at h
              subst h
              exact (hkeys _).1 hkmem
        · intro kv hkv
          constructor
          · obtain ⟨m, hm, e1, e2⟩ := (hmin kv hkv).1
            exact ⟨m, List.mem_append_left _ hm, e1, e2⟩
          · intro m hm hnm
            rcases List.mem_append.1 hm with hm | hm
            · exact (hmin kv hkv).2 m hm hnm
            · rw [List.mem_singleton] at hm
              have hkv2 : kv = (mName caps, old) :=
                keys_nodup_inj hnd hkv hmem_old (by rw [← hnm, hm])
              rw [hkv2, hm]
              exact hle

/-- A loop iteration that returns normally did parse its installs capture,
and performed exactly the `upd_skill` update. -/
theorem dict_step_inv {base : String} {d : List (String × Skill)}
    {caps : List (Option Nat × String)} {d1 : List (String × Skill)}
    (h : dict_step base d caps = .ok d1) :
    ∃ n, parse_installs (groupStr caps 4) = .ok n ∧ d1 = upd_skill base d caps n := by
  cases hp : parse_installs (groupStr caps 4) with
  | error u =>
      exfalso
      unfold dict_step at h
      rw [hp] at h
      dsimp only [Except.mapError, Bind.bind, Except.bind] at h
      cases h
  | ok n =>
      rw [dict_step_eq base d caps n hp] at h
      injection h with h
      exact ⟨n, rfl, h.symm⟩

/-- The only exception a loop iteration can raise is the installs
`OverflowError`. -/
theorem dict_step_err {base : String} {d : List (String × Skill)}
    {caps : List (Option Nat × String)} {e : LbErr}
    (h : dict_step base d caps = .error e) : e = .overflowError := by
  cases hp : parse_installs (groupStr caps 4) with
  | error u =>
      unfold dict_step at h
      rw [hp] at h
      dsimp only [Except.mapError, Bind.bind, Except.bind] at h
      injection h with h
      exact h.symm
  | ok n =>
      rw [dict_step_eq base d caps n hp] at h
      cases h

theorem foldlM_dict_inv (base : String) :
    ∀ (ms ms0 : List (List (Option Nat × String))) (d d2 : List (String × Skill)),
      DictInv ms0 d →
      ms.foldlM (dict_step base) d = .ok d2 → DictInv (ms0 ++ ms) d2 := by
  intro ms
  induction ms with
  | nil =>
      intro ms0 d d2 hinv h
      rw [List.foldlM_nil] at h
      injection h with h
      rw [List.append_nil, ← h]
      exact hinv
  | cons m ms ih =>
      intro ms0 d d2 hinv h
      rw [List.foldlM_cons] at h
      cases hs : dict_step base d m with
      | error e =>
          rw [hs] at h
          dsimp only [Bind.bind, Except.bind] at h
          cases h
      | ok d1 =>
          rw [hs] at h
          dsimp only [Bind.bind, Except.bind] at h
          obtain ⟨n, _, hd1⟩ := dict_step_inv hs
          subst hd1
          have h2 := ih (ms0 ++ [m]) (upd_skill base d m n) d2
            (DictInv_step base m n hinv) h
          rw [List.append_assoc] at h2
          exact h2

theorem foldlM_dict_err (base : String) :
    ∀ (ms : List (List (Option Nat × String))) (d : List (String × Skill))
      (e : LbErr),
      ms.foldlM (dict_step base) d = .error e → e = .overflowError := by
  intro ms
  induction ms with
  | nil =>
      intro d e h
      rw [List.foldlM_nil] at h
      cases h
  | cons m ms ih =>
      intro d e h
      rw [List.foldlM_cons] at h
      cases hs : dict_step base d m with
      | error e2 =>
          rw [hs] at h
          dsimp only [Bind.bind, Except.bind] at h
          injection h with h
          subst h
          exact dict_step_err hs
      | ok d1 =>
          rw [hs] at h
          dsimp only [Bind.bind, Except.bind] at h
          exact ih d1 e h

/-- The dict is nonempty exactly when the processed match list is. -/
theorem DictInv_ne_nil {ms : List (List (Option Nat × String))}
    {d : List (String × Skill)} (hinv : DictInv ms d) (hms : ms ≠ []) : d ≠ [] := by
  intro hd
  cases ms with
  | nil => exact hms rfl
  | cons m ms =>
      have := (hinv.2.2.1 (mName m)).2 (List.mem_map.2 ⟨m, List.mem_cons_self m ms, rfl⟩)
      rw [hd] at this
      cases this

/-- The grammar cascade returns normally, and its result dict satisfies the
invariant with respect to the first nonempty match list. -/
theorem pattern_loop_ok (base : String) (content : List Char) :
    ∀ ps : List (List ReItem),
      (∀ p ∈ ps, ∀ caps ∈ finditer p content,
        ∃ n, parse_installs (groupStr caps 4) = .ok n) →
      ∃ d2, pattern_loop base content ps [] = .ok d2 ∧
        DictInv (first_nonempty_matches content ps) d2 := by
  intro ps
  induction ps with
  | nil =>
      intro _
      exact ⟨[], rfl, DictInv_nil⟩
  | cons p ps ih =>
      intro hok
      unfold pattern_loop first_nonempty_matches
      by_cases hms : (finditer p content).isEmpty = true
      · have hms2 : finditer p content = [] := by
          cases he : finditer p content with
          | nil => rfl
          | cons a t => rw [he] at hms; cases hms
        rw [hms2]
        dsimp only [List.foldlM_nil, Bind.bind, Except.bind, List.isEmpty]
        obtain ⟨d2, hd2, hinv⟩ := ih fun q hq => hok q (List.mem_cons_of_mem _ hq)
        refine ⟨d2, hd2, ?_⟩
        rw [if_pos rfl]
        exact hinv
      · have hms3 : finditer p content ≠ [] := by
          intro he
          rw [he] at hms
          exact hms rfl
        obtain ⟨d2, hd2⟩ := foldlM_dict_ok base (finditer p content) []
          (hok p (List.mem_cons_self p ps))
        have hinv : DictInv (finditer p content) d2 := by
          have := foldlM_dict_inv base (finditer p content) [] [] d2 DictInv_nil hd2
          rw [List.nil_append] at this
          exact this
        have hd2ne : d2 ≠ [] := DictInv_ne_nil hinv hms3
        have hd2e : d2.isEmpty = false := by
          cases d2 with
          | nil => exact absurd rfl hd2ne
          | cons a t => rfl
        rw [hd2]
        dsimp only [Bind.bind, Except.bind]
        rw [hd2e]
        refine ⟨d2, rfl, ?_⟩
        rw [if_neg hms]
        exact hinv

/-- Any dict the cascade returns normally satisfies the invariant with
respect to the first nonempty match list. -/
theorem pattern_loop_inv (base : String) (content : List Char) :
    ∀ (ps : List (List ReItem)) (d : List (String × Skill)),
      pattern_loop base content ps [] = .ok d →
      DictInv (first_nonempty_matches content ps) d := by
  intro ps
  induction ps with
  | nil =>
      intro d h
      unfold pattern_loop at h
      injection h with h
      unfold first_nonempty_matches
      rw [← h]
      exact DictInv_nil
  | cons p ps ih =>
      intro d h
      unfold pattern_loop at h
      unfold first_nonempty_matches
      cases hf : (finditer p content).foldlM (dict_step base) [] with
      | error e =>
          rw [hf] at h
          dsimp only [Bind.bind, Except.bind] at h
          cases h
      | ok d2 =>
          rw [hf] at h
          dsimp only [Bind.bind, Except.bind] at h
          have hinv2 : DictInv (finditer p content) d2 := by
            have h3 := foldlM_dict_inv base (finditer p content) [] [] d2 DictInv_nil hf
            rw [List.nil_append] at h3
            exact h3
          by_cases hde : d2.isEmpty = true
          · rw [if_pos hde] at h
            have hd2 : d2 = [] := by
              cases d2 with
              | nil => rfl
              | cons a t => simp at hde
            have hme : finditer p content = [] := by
              by_contra hne
              exact (DictInv_ne_nil hinv2 hne) hd2
            rw [hd2] at h
            rw [hme]
            dsimp only [List.isEmpty]
            rw [if_pos rfl]
            exact ih d h
          · rw [if_neg hde] at h
            injection h with h
            subst h
            have hne : finditer p content ≠ [] := by
              intro he
              rw [he, List.foldlM_nil] at hf
              injection hf with hf
              rw [← hf] at hde
              exact hde rfl
            have hms : ¬((finditer p content).isEmpty = true) := by
              intro hc
              apply hne
              cases hcc : finditer p content with
              | nil => rfl
              | cons a t => rw [hcc] at hc; cases hc
            rw [if_neg hms]
            exact hinv2

/-- The only exception the cascade can raise is the installs
`OverflowError`. -/
theorem pattern_loop_err (base : String) (content : List Char) :
    ∀ (ps : List (List ReItem)) (e : LbErr),
      pattern_loop base content ps [] = .error e → e = .overflowError := by
  intro ps
  induction ps with
  | nil =>
      intro e h
      unfold pattern_loop at h
      cases h
  | cons p ps ih =>
      intro e h
      unfold pattern_loop at h
      cases hf : (finditer p content).foldlM (dict_step base) [] with
      | error e2 =>
          rw [hf] at h
          dsimp only [Bind.bind, Except.bind] at h
          injection h with h
          subst h
          exact foldlM_dict_err base _ _ _ hf
      | ok d2 =>
          rw [hf] at h
          dsimp only [Bind.bind, Except.bind] at h
          by_cases hde : d2.isEmpty = true
          · rw [if_pos hde] at h
            have hd2 : d2 = [] := by
              cases d2 with
              | nil => rfl
              | cons a t => simp at hde
            rw [hd2] at h
            exact ih e h
          · rw [if_neg hde] at h
            cases h

theorem parse_leaderboard_inv {base text : String} {skills : List Skill}
    (h : parse_leaderboard base text = .ok skills) :
    ∃ start d, find_marker text = some start ∧
      DictInv (first_nonempty_matches (text.data.drop start) PATTERNS) d ∧
      skills = (List.insertionSort rankLe (d.map Prod.snd)).take 20 := by
  unfold parse_leaderboard at h
  cases hm : find_marker text with
  | none =>
      rw [hm] at h
      cases h
  | some start =>
      rw [hm] at h
      dsimp only at h
      cases hp : pattern_loop base (text.data.drop start) PATTERNS [] with
      | error e =>
          rw [hp] at h
          dsimp only [Bind.bind, Except.bind] at h
          cases h
      | ok d =>
          rw [hp] at h
          dsimp only [Bind.bind, Except.bind] at h
          injection h with h
          exact ⟨start, d, rfl, pattern_loop_inv base _ PATTERNS d hp, h.symm⟩

instance : IsTotal Skill rankLe := ⟨fun a b => Nat.le_total a.rank b.rank⟩

instance : IsTrans Skill rankLe := ⟨fun _ _ _ h1 h2 => Nat.le_trans h1 h2⟩

/-- The match list the grammar cascade actually feeds into the dict (empty when
no marker is found). -/
def selected_matches (html_content : String) : List (List (Option Nat × String)) :=
  match find_marker html_content with
  | none => []
  | some start => first_nonempty_matches (html_content.data.drop start) PATTERNS

/-- C6: whenever `parse_leaderboard` returns normally, the returned list has
pairwise-distinct names; it is sorted ascending by rank; its length is
`min 20 (number of distinct matched names)`; and each entry's rank is the
minimum rank over all matches of its name in the selected grammar (attained
by one of them). -/
theorem C6_theorem {base text : String} {skills : List Skill}
    (h : parse_leaderboard base text = .ok skills) :
    (skills.map Skill.name).Nodup ∧
    List.Sorted rankLe skills ∧
    skills.length = min 20 ((selected_matches text).map mName).dedup.length ∧
    ∀ sk ∈ skills,
      (∃ m ∈ selected_matches text, mName m = sk.name ∧ mRank m = sk.rank) ∧
      ∀ m ∈ selected_matches text, mName m = sk.name → sk.rank ≤ mRank m := by
  obtain ⟨start, d, hm, hinv, hsk⟩ := parse_leaderboard_inv h
  have hsel : selected_matches text =
      first_nonempty_matches (text.data.drop start) PATTERNS := by
    unfold selected_matches
    rw [hm]
  obtain ⟨hnd, hname, hkeys, hmin⟩ := hinv
  have hnames_eq : (d.map Prod.snd).map Skill.name = d.map Prod.fst := by
    rw [List.map_map]
    exact List.map_congr_left hname
  have hperm := List.perm_insertionSort rankLe (d.map Prod.snd)
  refine ⟨?_, ?_, ?_, ?_⟩
  · have h1 : ((List.insertionSort rankLe (d.map Prod.snd)).map Skill.name).Nodup :=
      ((hperm.map Skill.name).nodup_iff).2 (by rw [hnames_eq]; exact hnd)
    rw [hsk, List.map_take]
    exact (List.take_sublist _ _).nodup h1
  · rw [hsk]
    exact List.Pairwise.sublist (List.take_sublist _ _)
      (List.sorted_insertionSort rankLe _)
  · have hdd : d.length =
        ((first_nonempty_matches (text.data.drop start) PATTERNS).map mName).dedup.length := by
      have h1 : d.length = (d.map Prod.fst).length := (List.length_map _ _).symm
      rw [h1, ← List.toFinset_card_of_nodup hnd,
        ← List.toFinset_card_of_nodup (List.nodup_dedup _)]
      congr 1
      apply Finset.ext
      intro k
      rw [List.mem_toFinset, List.mem_toFinset, List.mem_dedup]
      exact hkeys k
    rw [hsk, List.length_take, hperm.length_eq, List.length_map, hsel, hdd]
  · intro sk hsm
    rw [hsk] at hsm
    have hsm2 : sk ∈ d.map Prod.snd :=
      (hperm.mem_iff).1 ((List.take_sublist _ _).mem hsm)
    obtain ⟨kv, hkv, hkveq⟩ := List.mem_map.1 hsm2
    have hn : kv.1 = sk.name := by
      rw [← hkveq]
      exact (hname kv hkv).symm
    obtain ⟨⟨m, hm2, e1, e2⟩, hub⟩ := hmin kv hkv
    constructor
    · refine ⟨m, by rw [hsel]; exact hm2, by rw [e1, hn], by rw [e2, hkveq]⟩
    · intro m2 hm3 hnm
      have h2 := hub m2 (by rw [hsel] at hm3; exact hm3) (by rw [hnm, hn])
      rw [← hkveq]
      exact h2

def c6_base : String := "b"

def c6_text : String := "LEADERBOARD\n2\nbbb\no/r\n7\n1\naaa\no/r\n9"

def c6_skills : List Skill :=
  [{ rank := 1, name := "aaa", owner := "o/r", installs := 9, url := "b/o/r/aaa" },
   { rank := 2, name := "bbb", owner := "o/r", installs := 7, url := "b/o/r/bbb" }]

theorem C6_witness :
    parse_leaderboard c6_base c6_text = .ok c6_skills ∧
    ((c6_skills.map Skill.name).Nodup ∧
     List.Sorted rankLe c6_skills ∧
     c6_skills.length = min 20 ((selected_matches c6_text).map mName).dedup.length ∧
     ∀ sk ∈ c6_skills,
       (∃ m ∈ selected_matches c6_text, mName m = sk.name ∧ mRank m = sk.rank) ∧
       ∀ m ∈ selected_matches c6_text, mName m = sk.name → sk.rank ≤ mRank m) :=
  ⟨by rfl, @C6_theorem c6_base c6_text c6_skills (by rfl)⟩

/-- A marker-bearing leaderboard text whose single entry's installs field
is a 310-digit number with the K suffix, so that `float()` overflows. -/
def c7_bigtext : String :=
  ⟨"LEADERBOARD\n1\nfoo\no/r\n".data ++ List.replicate 310 '9' ++ ['K']⟩

/-- C7 counterexample, refuting both halves of the claim.  (1) On a text
with a leaderboard marker but no grammar match, `parse_leaderboard` does
NOT raise — it returns the empty list normally (the fatal error for an
empty result is raised by the caller `_fetch_async`).  (2) On a text with
a marker AND a grammar match it does not always return normally: a
310-digit installs capture makes `int(float(...) * 1000)` raise an
uncaught `OverflowError` inside `parse_leaderboard`. -/
theorem C7_counterexample :
    (find_marker "LEADERBOARD" = some 0 ∧
     first_nonempty_matches ("LEADERBOARD".data.drop 0) PATTERNS = [] ∧
     parse_leaderboard "b" "LEADERBOARD" = .ok []) ∧
    (find_marker c7_bigtext = some 0 ∧
     parse_leaderboard "b" c7_bigtext = .error .overflowError) :=
  ⟨⟨rfl, rfl, rfl⟩, ⟨rfl, rfl⟩⟩

/-- C7: `parse_leaderboard` raises `NotFoundError` when no marker variant
occurs in the text and never raises it when one does; when a marker is
present and every matched installs capture parses without overflow, the
call returns normally, with an empty result exactly on grammar exhaustion —
which is therefore NOT fatal inside `parse_leaderboard` (the raise on an
empty result lives in the caller); the only other possible exception is the
installs `OverflowError`. -/
theorem C7_theorem (base text : String) :
    (find_marker text = none → parse_leaderboard base text = .error .notFound) ∧
    (∀ start, find_marker text = some start →
      parse_leaderboard base text ≠ .error .notFound) ∧
    (∀ start, find_marker text = some start →
      (∀ p ∈ PATTERNS, ∀ caps ∈ finditer p (text.data.drop start),
        ∃ n, parse_installs (groupStr caps 4) = .ok n) →
      ∃ skills, parse_leaderboard base text = .ok skills ∧
        (skills = [] ↔
          first_nonempty_matches (text.data.drop start) PATTERNS = [])) := by
  refine ⟨?_, ?_, ?_⟩
  · intro h
    unfold parse_leaderboard
    rw [h]
  · intro start h hcon
    unfold parse_leaderboard at hcon
    rw [h] at hcon
    dsimp only at hcon
    cases hp : pattern_loop base (text.data.drop start) PATTERNS [] with
    | error e =>
        have he := pattern_loop_err base _ PATTERNS e hp
        rw [hp] at hcon
        dsimp only [Bind.bind, Except.bind] at hcon
        subst he
        injection hcon with hcon
        cases hcon
    | ok d =>
        rw [hp] at hcon
        dsimp only [Bind.bind, Except.bind] at hcon
        cases hcon
  · intro start h hok
    unfold parse_leaderboard
    rw [h]
    dsimp only
    obtain ⟨d, hd, hinv⟩ := pattern_loop_ok base (text.data.drop start) PATTERNS hok
    rw [hd]
    dsimp only [Bind.bind, Except.bind]
    refine ⟨_, rfl, ?_⟩
    constructor
    · intro hsk
      by_contra hms
      have hdne : d ≠ [] := DictInv_ne_nil hinv hms
      have hpos : 0 < d.length := List.length_pos.2 hdne
      have hlen : ((List.insertionSort rankLe (d.map Prod.snd)).take 20).length =
          min 20 d.length := by
        rw [List.length_take, (List.perm_insertionSort _ _).length_eq, List.length_map]
      rw [hsk] at hlen
      simp only [List.length_nil] at hlen
      omega
    · intro hms
      have hd0 : d = [] := by
        cases d with
        | nil => rfl
        | cons kv t =>
            have h2 := (hinv.2.2.1 kv.1).1 (by simp)
            rw [hms] at h2
            cases h2
      rw [hd0]
      rfl

def c7_text_nomarker : String := "nothing here"

def c7_text_marker : String := "LEADERBOARD"

theorem C7_witness :
    parse_leaderboard c6_base c7_text_nomarker = .error .notFound ∧
    parse_leaderboard c6_base c7_text_marker ≠ .error .notFound ∧
    (∃ skills, parse_leaderboard c6_base c7_text_marker = .ok skills ∧
      (skills = [] ↔
        first_nonempty_matches (c7_text_marker.data.drop 0) PATTERNS = [])) :=
  ⟨(C7_theorem c6_base c7_text_nomarker).1 (by rfl),
   (C7_theorem c6_base c7_text_marker).2.1 0 (by rfl),
   (C7_theorem c6_base c7_text_marker).2.2 0 (by rfl) (by
      intro p hp caps hc
      simp only [PATTERNS, List.mem_cons, List.not_mem_nil, or_false] at hp
      rcases hp with rfl | rfl | rfl | rfl
      · rw [show finditer pattern1 (c7_text_marker.data.drop 0) = [] from rfl] at hc
        cases hc
      · rw [show finditer pattern2 (c7_text_marker.data.drop 0) = [] from rfl] at hc
        cases hc
      · rw [show finditer pattern3 (c7_text_marker.data.drop 0) = [] from rfl] at hc
        cases hc
      · rw [show finditer pattern4 (c7_text_marker.data.drop 0) = [] from rfl] at hc
        cases hc)⟩

end TrendingSkills
